import Mathlib

/-!
Verification development for the TODO repository's local persistence layer
(`src/electron.cjs`) and its client synchronization layer (`src/App.tsx`).

The SQLite-backed store keeps the `refs`, `rels` and `attachments` columns as
TEXT holding JSON; the store code round-trips them through the JavaScript
builtins `JSON.parse` / `JSON.stringify` and pre-filters cascade-delete
candidates with SQL `LIKE`.  We therefore model:

  * JSON values (`Json`, with arrays and objects as the mutual types `JList`
    and `JFields`); number literals keep their raw lexeme, since the store
    never computes with parsed numbers, only re-serializes them;
  * `JSON.stringify` (`jsonStr`) and `JSON.parse` (`jsonParse`, a fuel-based
    recursive-descent parser over the JSON grammar, rejecting exactly the
    texts `JSON.parse` rejects up to the number-lexeme abstraction);
  * SQLite `LIKE` (`sqlLike`, ASCII-case-insensitive, `%`/`_` wildcards);
  * the todos table, the meta row, and the five store operations;
  * the debounced write-back scheduler of the client layer.

Timestamps (`new Date().toISOString()`) are nondeterministic inputs and are
passed to each operation as explicit `String` arguments.  SQLite `ORDER BY`
is modelled as a stable insertion sort on the queried key; TEXT comparison is
the character-wise order of `String`.  The `ord` column is modelled as `Int`
(the renderer only ever stores array indices there).
-/

mutual
inductive Json where
  | null
  | bool (b : Bool)
  | num (lex : String)
  | str (s : String)
  | arr (elems : JList)
  | obj (fields : JFields)
deriving DecidableEq, Repr
inductive JList where
  | nil
  | cons (hd : Json) (tl : JList)
deriving DecidableEq, Repr
inductive JFields where
  | nil
  | cons (key : String) (val : Json) (tl : JFields)
deriving DecidableEq, Repr
end

def JList.toList : JList → List Json
  | .nil => []
  | .cons x tl => x :: tl.toList

def JList.ofList : List Json → JList
  | [] => .nil
  | x :: tl => .cons x (JList.ofList tl)

theorem JList.toList_ofList (l : List Json) : (JList.ofList l).toList = l := by
  induction l with
  | nil => rfl
  | cons x tl ih => simp [JList.ofList, JList.toList, ih]

/-- Keys of a JSON object, in order. -/
def JFields.keys : JFields → List String
  | .nil => []
  | .cons k _ tl => k :: tl.keys

/-- Property lookup on a JSON object (first occurrence; parsed objects have
unique keys). -/
def JFields.lookup (k : String) : JFields → Option Json
  | .nil => none
  | .cons k' v tl => if k' == k then some v else JFields.lookup k tl

def JFields.remove (k : String) : JFields → JFields
  | .nil => .nil
  | .cons k' v tl => if k' == k then tl else .cons k' v (JFields.remove k tl)

/-- Duplicate-key handling of `JSON.parse`: a later duplicate key keeps the
first key's position but takes the last value.  Combining a parsed field with
the already-parsed remaining fields implements exactly that. -/
def JFields.dedupCons (k : String) (v : Json) (tl : JFields) : JFields :=
  match tl.lookup k with
  | some v' => .cons k v' (tl.remove k)
  | none => .cons k v tl

/-- JavaScript property access `rel?.toId`: objects yield the property value,
every other value (and a missing key) yields `undefined`, modelled as `none`. -/
def Json.getToId : Json → Option Json
  | .obj fs => fs.lookup "toId"
  | _ => none

/-! ## JSON.stringify -/

def hexDigit (n : Nat) : Char :=
  if n < 10 then Char.ofNat (48 + n) else Char.ofNat (87 + n)

/-- Escaping of one character inside a JSON string literal, as performed by
`JSON.stringify`: `"` and `\` are escaped, control characters use the short
escapes or `\u00XX`, everything else is copied verbatim. -/
def encChar (c : Char) : List Char :=
  if c == '"' then ['\\', '"']
  else if c == '\\' then ['\\', '\\']
  else if c == '\x08' then ['\\', 'b']
  else if c == '\x09' then ['\\', 't']
  else if c == '\x0a' then ['\\', 'n']
  else if c == '\x0c' then ['\\', 'f']
  else if c == '\x0d' then ['\\', 'r']
  else if c.toNat < 32 then
    ['\\', 'u', '0', '0', hexDigit (c.toNat / 16), hexDigit (c.toNat % 16)]
  else [c]

def encChars : List Char → List Char
  | [] => []
  | c :: cs => encChar c ++ encChars cs

def strLit (s : String) : List Char :=
  '"' :: encChars s.toList ++ ['"']

mutual
def jsonStr : Json → List Char
  | .null => ['n', 'u', 'l', 'l']
  | .bool b => cond b ['t', 'r', 'u', 'e'] ['f', 'a', 'l', 's', 'e']
  | .num lex => lex.toList
  | .str s => strLit s
  | .arr xs => '[' :: jlistStr xs ++ [']']
  | .obj fs => '{' :: jfieldsStr fs ++ ['}']
def jlistStr : JList → List Char
  | .nil => []
  | .cons x .nil => jsonStr x
  | .cons x (JList.cons y tl) => jsonStr x ++ ',' :: jlistStr (.cons y tl)
def jfieldsStr : JFields → List Char
  | .nil => []
  | .cons k v .nil => strLit k ++ ':' :: jsonStr v
  | .cons k v (JFields.cons k2 v2 tl) =>
      (strLit k ++ ':' :: jsonStr v) ++ ',' :: jfieldsStr (.cons k2 v2 tl)
end

/-- The text `JSON.stringify` produces for a JSON value. -/
def stringify (v : Json) : String := String.mk (jsonStr v)

/-! ## JSON.parse -/

def isWsChar (c : Char) : Bool :=
  c == ' ' || c == '\t' || c == '\n' || c == '\r'

def skipWs : List Char → List Char
  | [] => []
  | c :: cs => if isWsChar c then skipWs cs else c :: cs

/-- Greedy scan of a run of decimal digits. -/
def scanDigits : List Char → List Char × List Char
  | [] => ([], [])
  | c :: cs =>
    if c.isDigit then
      let p := scanDigits cs
      (c :: p.1, p.2)
    else ([], c :: cs)

/-- Unsigned integer part of a JSON number: `0` or a nonzero digit followed
by digits. -/
def lexInt : List Char → Option (List Char × List Char)
  | [] => none
  | c :: cs =>
    if c == '0' then some ([c], cs)
    else if c.isDigit then
      let p := scanDigits cs
      some (c :: p.1, p.2)
    else none

/-- Optional fraction part: `.` followed by at least one digit. -/
def lexFrac : List Char → Option (List Char × List Char)
  | [] => some ([], [])
  | c :: cs =>
    if c == '.' then
      match scanDigits cs with
      | ([], _) => none
      | (ds, rest) => some ('.' :: ds, rest)
    else some ([], c :: cs)

/-- Optional exponent part: `e`/`E`, optional sign, at least one digit. -/
def lexExp : List Char → Option (List Char × List Char)
  | [] => some ([], [])
  | c :: cs =>
    if c == 'e' || c == 'E' then
      let sp : List Char × List Char :=
        match cs with
        | s :: rest => if s == '+' || s == '-' then ([s], rest) else ([], s :: rest)
        | [] => ([], [])
      match scanDigits sp.2 with
      | ([], _) => none
      | (ds, rest) => some (c :: sp.1 ++ ds, rest)
    else some ([], c :: cs)

/-- Unsigned part of a JSON number: integer part, optional fraction,
optional exponent. -/
def lexUnsigned (cs : List Char) : Option (List Char × List Char) :=
  match lexInt cs with
  | none => none
  | some (ip, cs2) =>
    match lexFrac cs2 with
    | none => none
    | some (fp, cs3) =>
      match lexExp cs3 with
      | none => none
      | some (ep, rest) => some (ip ++ fp ++ ep, rest)

/-- Lexer for a JSON number literal; returns the lexeme and the rest. -/
def lexNumber (cs : List Char) : Option (List Char × List Char) :=
  match cs with
  | [] => none
  | c :: rest =>
    if c == '-' then (lexUnsigned rest).map (fun p => ('-' :: p.1, p.2))
    else lexUnsigned (c :: rest)

def hexVal (c : Char) : Option Nat :=
  if '0' ≤ c ∧ c ≤ '9' then some (c.toNat - 48)
  else if 'a' ≤ c ∧ c ≤ 'f' then some (c.toNat - 87)
  else if 'A' ≤ c ∧ c ≤ 'F' then some (c.toNat - 55)
  else none

/-- Decoder for the body of a JSON string literal (the opening quote already
consumed); returns the decoded characters and the rest after the closing
quote.  Raw control characters are a parse error; `\uXXXX` escapes in the
surrogate range have no counterpart among Lean scalar values and are treated
as a parse error (they never occur in texts this store writes). -/
def decodeStr : List Char → Option (List Char × List Char)
  | [] => none
  | c :: rest =>
    if c == '"' then some ([], rest)
    else if c == '\\' then
      match rest with
      | [] => none
      | e :: rest2 =>
        if e == '"' then (decodeStr rest2).map (fun p => ('"' :: p.1, p.2))
        else if e == '\\' then (decodeStr rest2).map (fun p => ('\\' :: p.1, p.2))
        else if e == '/' then (decodeStr rest2).map (fun p => ('/' :: p.1, p.2))
        else if e == 'b' then (decodeStr rest2).map (fun p => ('\x08' :: p.1, p.2))
        else if e == 'f' then (decodeStr rest2).map (fun p => ('\x0c' :: p.1, p.2))
        else if e == 'n' then (decodeStr rest2).map (fun p => ('\x0a' :: p.1, p.2))
        else if e == 'r' then (decodeStr rest2).map (fun p => ('\x0d' :: p.1, p.2))
        else if e == 't' then (decodeStr rest2).map (fun p => ('\x09' :: p.1, p.2))
        else if e == 'u' then
          match rest2 with
          | a :: b :: c2 :: d :: rest3 =>
            match hexVal a, hexVal b, hexVal c2, hexVal d with
            | some x, some y, some z, some w =>
              let n := ((x * 16 + y) * 16 + z) * 16 + w
              if n < 0xd800 then
                (decodeStr rest3).map (fun p => (Char.ofNat n :: p.1, p.2))
              else if 0xe000 ≤ n then
                (decodeStr rest3).map (fun p => (Char.ofNat n :: p.1, p.2))
              else none
            | _, _, _, _ => none
          | _ => none
        else none
    else if c.toNat < 32 then none
    else (decodeStr rest).map (fun p => (c :: p.1, p.2))

mutual
/-- Recursive-descent parser for a JSON value (leading whitespace allowed),
driven by fuel. -/
def parseValue : Nat → List Char → Option (Json × List Char)
  | 0, _ => none
  | fuel + 1, cs =>
    match skipWs cs with
    | [] => none
    | c :: cs1 =>
      if c == 'n' then
        match cs1 with
        | 'u' :: 'l' :: 'l' :: rest => some (.null, rest)
        | _ => none
      else if c == 't' then
        match cs1 with
        | 'r' :: 'u' :: 'e' :: rest => some (.bool true, rest)
        | _ => none
      else if c == 'f' then
        match cs1 with
        | 'a' :: 'l' :: 's' :: 'e' :: rest => some (.bool false, rest)
        | _ => none
      else if c == '"' then
        (decodeStr cs1).map (fun p => (.str (String.mk p.1), p.2))
      else if c == '[' then
        match skipWs cs1 with
        | [] => none
        | d :: cs2 =>
          if d == ']' then some (.arr .nil, cs2)
          else (parseItems fuel (d :: cs2)).map (fun p => (.arr p.1, p.2))
      else if c == '{' then
        match skipWs cs1 with
        | [] => none
        | d :: cs2 =>
          if d == '}' then some (.obj .nil, cs2)
          else (parseFields fuel (d :: cs2)).map (fun p => (.obj p.1, p.2))
      else if c == '-' || c.isDigit then
        (lexNumber (c :: cs1)).map (fun p => (.num (String.mk p.1), p.2))
      else none
/-- One or more comma-separated array items followed by `]`. -/
def parseItems : Nat → List Char → Option (JList × List Char)
  | 0, _ => none
  | fuel + 1, cs =>
    match parseValue fuel cs with
    | none => none
    | some (v, rest) =>
      match skipWs rest with
      | [] => none
      | d :: rest2 =>
        if d == ',' then (parseItems fuel rest2).map (fun p => (.cons v p.1, p.2))
        else if d == ']' then some (.cons v .nil, rest2)
        else none
/-- One or more comma-separated object members followed by `}`; the input
starts at the (whitespace-skipped) key. -/
def parseFields : Nat → List Char → Option (JFields × List Char)
  | 0, _ => none
  | fuel + 1, cs =>
    match cs with
    | [] => none
    | c :: cs1 =>
      if c == '"' then
        match decodeStr cs1 with
        | none => none
        | some (k, rest) =>
          match skipWs rest with
          | [] => none
          | d :: rest2 =>
            if d == ':' then
              match parseValue fuel rest2 with
              | none => none
              | some (v, rest3) =>
                match skipWs rest3 with
                | [] => none
                | d2 :: rest4 =>
                  if d2 == ',' then
                    (parseFields fuel (skipWs rest4)).map
                      (fun p => (JFields.dedupCons (String.mk k) v p.1, p.2))
                  else if d2 == '}' then some (.cons (String.mk k) v .nil, rest4)
                  else none
            else none
      else none
end

/-- Model of the JavaScript builtin `JSON.parse`: `none` when it would throw.
Each two units of fuel consume at least one input character, so the fuel
below never runs out on any input. -/
def jsonParse (s : String) : Option Json :=
  match parseValue (2 * s.length + 2) s.toList with
  | some (v, rest) => if skipWs rest = [] then some v else none
  | none => none

/-! Sanity checks for the parser and printer on concrete texts. -/

example : jsonParse "[\"a\", 1, null]" =
    some (.arr (.cons (.str "a") (.cons (.num "1") (.cons .null .nil)))) := by decide
example : jsonParse "not json" = none := by decide
example : jsonParse "\x7b\"toId\":\"x\"\x7d" = some (.obj (.cons "toId" (.str "x") .nil)) := by decide
example : jsonParse "[01]" = none := by decide
example : jsonParse "[1.5e-3]" = some (.arr (.cons (.num "1.5e-3") .nil)) := by decide
example : jsonParse "[\"a\\\"b\"]" = some (.arr (.cons (.str "a\"b") .nil)) := by decide
example : jsonParse "[1" = none := by decide
example : jsonParse " \x7b\"a\":1,\"b\":2,\"a\":3\x7d " =
    some (.obj (.cons "a" (.num "3") (.cons "b" (.num "2") .nil))) := by decide
example : stringify (.arr (.cons (.str "a\"b") .nil)) = "[\"a\\\"b\"]" := by decide
example : jsonParse "[\"\\u0041\"]" = some (.arr (.cons (.str "A") .nil)) := by decide

/-! ## SQLite LIKE

`deleteTodoRow` pre-filters cascade candidates with
`refs LIKE '%"<id>"%' OR rels LIKE '%"<id>"%'`.  SQLite's default `LIKE` is
case-insensitive for ASCII letters; `%` matches any run of characters and
`_` any single character. -/

/-- ASCII case folding used by SQLite's default `LIKE`. -/
def foldCase (c : Char) : Char :=
  if 'A' ≤ c ∧ c ≤ 'Z' then Char.ofNat (c.toNat + 32) else c

/-- Fuel-driven `LIKE` matcher (pattern against whole text).  Every step
shrinks the pattern or the text, so fuel `|pattern| + |text| + 1` always
suffices. -/
def likeM : Nat → List Char → List Char → Bool
  | 0, _, _ => false
  | fuel + 1, p, t =>
    match p with
    | [] => t.isEmpty
    | pc :: p' =>
      if pc == '%' then
        likeM fuel p' t ||
          (match t with
           | [] => false
           | _ :: t' => likeM fuel (pc :: p') t')
      else if pc == '_' then
        match t with
        | [] => false
        | _ :: t' => likeM fuel p' t'
      else
        match t with
        | [] => false
        | tc :: t' => foldCase pc == foldCase tc && likeM fuel p' t'

/-- SQLite `text LIKE pattern` (default case-insensitive ASCII collation). -/
def sqlLike (pattern text : String) : Bool :=
  likeM (pattern.length + text.length + 1) pattern.toList text.toList

example : sqlLike "%\"t1\"%" "[\"t0\",\"t1\"]" = true := by decide
example : sqlLike "%\"t1\"%" "[\"t10\"]" = false := by decide
example : sqlLike "%\"a\"%" "[\"A\"]" = true := by decide

/-! ## The record store (`electron.cjs`)

One row of the `todos` table; `refs`, `rels`, `attachments` are TEXT columns
holding JSON, exactly as in the schema.  The `meta` table's `updatedAt` row is
the store-level last-modified stamp (its constant `version` row is omitted). -/

structure Row where
  id : String
  title : String
  content : String
  status : String
  date : String
  ord : Int
  refs : String
  rels : String
  attachments : String
  createdAt : String
  updatedAt : String
deriving DecidableEq, Repr

structure Store where
  todos : List Row
  metaUpdatedAt : String
deriving DecidableEq, Repr

/-- `safeJsonParseArray`: parse, keep arrays, coerce everything else
(including parse failures) to the empty array. -/
def safeJsonParseArray (text : String) : List Json :=
  match jsonParse text with
  | some (.arr xs) => xs.toList
  | _ => []

/-- `toJsonArray`: `JSON.stringify(Array.isArray(value) ? value : [])`.
The argument is the JavaScript value supplied by the caller, `none` for
`undefined`/absent. -/
def toJsonArray (value : Option Json) : String :=
  match value with
  | some (.arr xs) => stringify (.arr xs)
  | _ => "[]"

/-- A full record as the renderer receives it from `loadTodosByDate`
(`ord AS "order"`, JSON columns parsed). -/
structure TodoView where
  id : String
  title : String
  content : String
  status : String
  date : String
  order : Int
  refs : List Json
  rels : List Json
  attachments : List Json
  createdAt : String
  updatedAt : String
deriving DecidableEq, Repr

def viewOfRow (r : Row) : TodoView :=
  { id := r.id
    title := r.title
    content := r.content
    status := r.status
    date := r.date
    order := r.ord
    refs := safeJsonParseArray r.refs
    rels := safeJsonParseArray r.rels
    attachments := safeJsonParseArray r.attachments
    createdAt := r.createdAt
    updatedAt := r.updatedAt }

/-- Summary projection row returned by `loadTodoSummaryIndex`. -/
structure SummaryView where
  id : String
  title : String
  status : String
  date : String
  order : Int
  createdAt : String
  updatedAt : String
deriving DecidableEq, Repr

def summaryOfRow (r : Row) : SummaryView :=
  { id := r.id, title := r.title, status := r.status, date := r.date,
    order := r.ord, createdAt := r.createdAt, updatedAt := r.updatedAt }

/-! Stable insertion sort standing in for SQL `ORDER BY`. -/

def insertLe {α : Type} (le : α → α → Bool) (x : α) : List α → List α
  | [] => [x]
  | y :: ys => if le x y then x :: y :: ys else y :: insertLe le x ys

def sortLe {α : Type} (le : α → α → Bool) : List α → List α
  | [] => []
  | x :: xs => insertLe le x (sortLe le xs)

/-- `ORDER BY ord ASC, updatedAt ASC` (SQLite compares TEXT bytewise). -/
def byDateLe (a b : Row) : Bool :=
  a.ord < b.ord || (a.ord == b.ord && decide (a.updatedAt ≤ b.updatedAt))

/-- `ORDER BY date ASC, ord ASC, updatedAt ASC`. -/
def summaryLe (a b : Row) : Bool :=
  decide (a.date < b.date) ||
    (a.date == b.date &&
      (a.ord < b.ord || (a.ord == b.ord && decide (a.updatedAt ≤ b.updatedAt))))

/-- `loadTodosByDate(selectedDate)`. -/
def loadTodosByDate (selectedDate : String) (s : Store) : List TodoView :=
  (sortLe byDateLe (s.todos.filter (fun r => r.date == selectedDate))).map viewOfRow

/-- `loadTodoSummaryIndex()`. -/
def loadTodoSummaryIndex (s : Store) : List SummaryView :=
  (sortLe summaryLe s.todos).map summaryOfRow

/-- The `todo` argument of `upsertTodoRow` as it arrives over IPC.  Absent or
`undefined` fields are `none`; `order` is `none` when `Number.isFinite(order)`
is false; `refs`/`rels`/`attachments` hold the caller's JavaScript value. -/
structure TodoInput where
  id : String
  title : Option String
  content : Option String
  status : Option String
  date : Option String
  order : Option Int
  refs : Option Json
  rels : Option Json
  attachments : Option Json
  createdAt : Option String
  updatedAt : Option String
deriving DecidableEq, Repr

/-- The `ON CONFLICT(id) DO UPDATE SET` list of `upsertTodoRow`: every
mutable column is overwritten from the input; `createdAt` is not in the SET
list and keeps the stored value. -/
def upsertUpd (todo : TodoInput) (updatedAt : String) (r : Row) : Row :=
  { r with title := todo.title.getD "", content := todo.content.getD "",
           status := todo.status.getD "TODO", date := todo.date.getD "",
           ord := todo.order.getD 0, refs := toJsonArray todo.refs,
           rels := toJsonArray todo.rels,
           attachments := toJsonArray todo.attachments,
           updatedAt := updatedAt }

/-- The `INSERT ... VALUES` row of `upsertTodoRow` for a fresh id. -/
def insertRowOf (todo : TodoInput) (createdAt updatedAt : String) : Row :=
  { id := todo.id, title := todo.title.getD "", content := todo.content.getD "",
    status := todo.status.getD "TODO", date := todo.date.getD "",
    ord := todo.order.getD 0, refs := toJsonArray todo.refs,
    rels := toJsonArray todo.rels, attachments := toJsonArray todo.attachments,
    createdAt := createdAt, updatedAt := updatedAt }

/-- `upsertTodoRow(todo)`.  `nowA`/`nowB`/`nowMeta` are the three separate
`new Date().toISOString()` calls (createdAt default, updatedAt default, meta
stamp).  Returns the boolean result together with the next store. -/
def upsertTodoRow (todo : TodoInput) (nowA nowB nowMeta : String) (s : Store) :
    Bool × Store :=
  if todo.id == "" then (false, s)
  else
    let todos :=
      if s.todos.any (fun r => r.id == todo.id) then
        s.todos.map (fun r =>
          if r.id == todo.id then upsertUpd todo (todo.updatedAt.getD nowB) r
          else r)
      else
        s.todos ++ [insertRowOf todo (todo.createdAt.getD nowA) (todo.updatedAt.getD nowB)]
    (true, { todos := todos, metaUpdatedAt := nowMeta })

/-- The LIKE pattern `deleteTodoRow` builds for an id. -/
def likePattern (id : String) : String := "%\"" ++ id ++ "\"%"

/-- The candidate pre-filter `refs LIKE ? OR rels LIKE ?`. -/
def rowLikeHit (id : String) (row : Row) : Bool :=
  sqlLike (likePattern id) row.refs || sqlLike (likePattern id) row.rels

/-- The `refs` cascade filter `ref !== id`: strict equality holds only
between equal strings. -/
def refKeep (id : String) (r : Json) : Bool := !(r == Json.str id)

/-- The `rels` cascade filter `rel?.toId !== id`. -/
def relKeep (id : String) (r : Json) : Bool :=
  !(r.getToId == some (Json.str id))

/-- The row rewrite one cascade candidate contributes inside the delete
transaction: `none` when neither serialized field would change (the row is
skipped), otherwise the `UPDATE ... WHERE id = row.id`. -/
def rowCascade (id now : String) (row : Row) : Option (Row → Row) :=
  let nextRefs := (safeJsonParseArray row.refs).filter (refKeep id)
  let nextRels := (safeJsonParseArray row.rels).filter (relKeep id)
  let refsText := stringify (.arr (JList.ofList nextRefs))
  let relsText := stringify (.arr (JList.ofList nextRels))
  if refsText == row.refs && relsText == row.rels then none
  else
    some (fun r =>
      if r.id == row.id then
        { r with refs := refsText, rels := relsText, updatedAt := now }
      else r)

/-- The per-row UPDATE functions of a delete's cascade, in candidate order. -/
def deleteCascades (id now : String) (s : Store) : List (Row → Row) :=
  (s.todos.filter (rowLikeHit id)).filterMap (fun row =>
    if row.id == id then none else rowCascade id now row)

/-- The statements executed inside the `BEGIN IMMEDIATE TRANSACTION` of
`deleteTodoRow`, as store transformers: the `DELETE`, the cascade `UPDATE`s,
and the meta stamp. -/
def deleteSteps (id now : String) (s : Store) : List (Store → Store) :=
  (fun st => { st with todos := st.todos.filter (fun r => !(r.id == id)) }) ::
    (deleteCascades id now s).map (fun f => fun st => { st with todos := st.todos.map f }) ++
    [fun st => { st with metaUpdatedAt := now }]

/-- `deleteTodoRow(id)` on the success path; `now` is the single
`new Date().toISOString()` the function takes before the transaction. -/
def deleteTodoRow (id now : String) (s : Store) : Bool × Store :=
  if id == "" then (false, s)
  else (true, (deleteSteps id now s).foldl (fun st f => f st) s)

/-- `deleteTodoRow` with a failure oracle: `failAt = some 0` makes the
candidate `SELECT`/`BEGIN` fail (before any mutation), `some (k+1)` makes the
k-th statement inside the transaction fail after the previous ones applied,
whereupon the `catch` block issues `ROLLBACK` (restoring the pre-transaction
store) and rethrows.  `none` is the failure-free run. -/
def deleteTodoRowRun (failAt : Option Nat) (id now : String) (s : Store) :
    Store × Except Unit Bool :=
  if id == "" then (s, .ok false)
  else
    match failAt with
    | some 0 => (s, .error ())
    | some (k + 1) =>
      if k < (deleteSteps id now s).length then (s, .error ())
      else ((deleteSteps id now s).foldl (fun st f => f st) s, .ok true)
    | none => ((deleteSteps id now s).foldl (fun st f => f st) s, .ok true)

/-- One element of the `updates` argument of `updateTodoOrders`. -/
structure OrderItem where
  id : String
  order : Option Int
  updatedAt : Option String
deriving DecidableEq, Repr

/-- The UPDATE one batch item performs (items with a falsy id are skipped). -/
def orderItemStep (now : String) (item : OrderItem) (todos : List Row) : List Row :=
  if item.id == "" then todos
  else
    todos.map (fun r =>
      if r.id == item.id then
        { r with ord := item.order.getD 0, updatedAt := item.updatedAt.getD now }
      else r)

/-- `updateTodoOrders(updates)` on the success path; `now` is the single
timestamp taken before the transaction. -/
def updateTodoOrders (updates : List OrderItem) (now : String) (s : Store) :
    Bool × Store :=
  if updates.isEmpty then (true, s)
  else
    (true,
      { todos := updates.foldl (fun todos item => orderItemStep now item todos) s.todos,
        metaUpdatedAt := now })

/-- The mutations reachable through the IPC surface, for stating properties
about arbitrary operation sequences. -/
inductive StoreOp where
  | upsert (todo : TodoInput) (nowA nowB nowMeta : String)
  | del (id : String) (now : String)
  | reorder (updates : List OrderItem) (now : String)

def applyOp (s : Store) : StoreOp → Store
  | .upsert todo nowA nowB nowMeta => (upsertTodoRow todo nowA nowB nowMeta s).2
  | .del id now => (deleteTodoRow id now s).2
  | .reorder updates now => (updateTodoOrders updates now s).2

def applyOps (ops : List StoreOp) (s : Store) : Store := ops.foldl applyOp s

/-! ## Sorting lemmas -/

theorem insertLe_perm {α : Type} (le : α → α → Bool) (x : α) (l : List α) :
    List.Perm (insertLe le x l) (x :: l) := by
  induction l with
  | nil => simp [insertLe]
  | cons y ys ih =>
    by_cases h : le x y
    · simp [insertLe, h]
    · simp only [insertLe, h, Bool.false_eq_true, if_false]
      exact (List.Perm.cons y ih).trans (List.Perm.swap x y ys)

theorem sortLe_perm {α : Type} (le : α → α → Bool) (l : List α) :
    List.Perm (sortLe le l) l := by
  induction l with
  | nil => simp [sortLe]
  | cons x xs ih => exact (insertLe_perm le x (sortLe le xs)).trans (ih.cons x)

theorem insertLe_pairwise {α : Type} (le : α → α → Bool)
    (htot : ∀ a b, le a b = true ∨ le b a = true)
    (htrans : ∀ a b c, le a b = true → le b c = true → le a c = true)
    (x : α) (l : List α) (hl : l.Pairwise (fun a b => le a b = true)) :
    (insertLe le x l).Pairwise (fun a b => le a b = true) := by
  induction l with
  | nil => simp [insertLe]
  | cons y ys ih =>
    rcases List.pairwise_cons.mp hl with ⟨hy, hys⟩
    unfold insertLe
    by_cases h : le x y
    · rw [if_pos h]
      refine List.pairwise_cons.mpr ⟨?_, hl⟩
      intro b hb
      rcases List.mem_cons.mp hb with hbx | hb
      · rw [hbx]
        exact h
      · exact htrans x y b h (hy b hb)
    · simp only [h, Bool.false_eq_true, if_false]
      refine List.pairwise_cons.mpr ⟨?_, ih hys⟩
      intro b hb
      have hb' := (insertLe_perm le x ys).mem_iff.mp hb
      rcases List.mem_cons.mp hb' with hbx | hb'
      · rw [hbx]
        rcases htot x y with hxy | hyx
        · exact absurd hxy h
        · exact hyx
      · exact hy b hb'

theorem sortLe_pairwise {α : Type} (le : α → α → Bool)
    (htot : ∀ a b, le a b = true ∨ le b a = true)
    (htrans : ∀ a b c, le a b = true → le b c = true → le a c = true)
    (l : List α) :
    (sortLe le l).Pairwise (fun a b => le a b = true) := by
  induction l with
  | nil => simp [sortLe]
  | cons x xs ih => exact insertLe_pairwise le htot htrans x _ ih

/-! ## Fold characterization of the reorder batch -/

theorem listMapSelf {α : Type} (f : α → α) (l : List α) (h : ∀ a ∈ l, f a = a) :
    l.map f = l := by
  induction l with
  | nil => rfl
  | cons x xs ih =>
    simp only [List.map_cons, h x (List.mem_cons_self x xs)]
    rw [ih (fun a ha => h a (List.mem_cons_of_mem x ha))]

theorem listAnyCongr {α : Type} (p q : α → Bool) (l : List α)
    (h : ∀ a ∈ l, p a = q a) : l.any p = l.any q := by
  induction l with
  | nil => rfl
  | cons x xs ih =>
    simp only [List.any_cons, h x (List.mem_cons_self x xs)]
    rw [ih (fun a ha => h a (List.mem_cons_of_mem x ha))]

theorem listAllNotOfAnyFalse {α : Type} (p : α → Bool) (l : List α)
    (h : l.any p = false) (a : α) (ha : a ∈ l) : p a = false := by
  cases hpa : p a
  · rfl
  · exact absurd (List.any_eq_true.mpr ⟨a, ha, hpa⟩) (by simp [h])

/-- Per-row effect of one batch item. -/
def stepRow (now : String) (item : OrderItem) (r : Row) : Row :=
  if item.id == "" then r
  else if r.id == item.id then
    { r with ord := item.order.getD 0, updatedAt := item.updatedAt.getD now }
  else r

theorem orderItemStep_eq_map (now : String) (item : OrderItem) (todos : List Row) :
    orderItemStep now item todos = todos.map (stepRow now item) := by
  by_cases h : item.id == ""
  · simp only [orderItemStep, h, if_true]
    exact (listMapSelf _ todos (fun r _ => by simp [stepRow, h])).symm
  · simp only [orderItemStep, h, Bool.false_eq_true, if_false]
    apply List.map_congr_left
    intro r _
    simp [stepRow, h]

/-- Cumulative per-row effect of a batch prefix. -/
def chainOrd (now : String) (updates : List OrderItem) (r : Row) : Row :=
  updates.foldl (fun r item => stepRow now item r) r

theorem ordersFold_eq_map (now : String) (updates : List OrderItem) (todos : List Row) :
    updates.foldl (fun todos item => orderItemStep now item todos) todos =
      todos.map (chainOrd now updates) := by
  induction updates generalizing todos with
  | nil =>
    simp only [List.foldl_nil]
    exact (listMapSelf _ todos (fun r _ => rfl)).symm
  | cons item rest ih =>
    rw [List.foldl_cons, ih, orderItemStep_eq_map, List.map_map]
    rfl

theorem stepRow_id (now : String) (item : OrderItem) (r : Row) :
    (stepRow now item r).id = r.id := by
  unfold stepRow
  split
  · rfl
  · split <;> rfl

theorem chainOrd_id (now : String) (updates : List OrderItem) (r : Row) :
    (chainOrd now updates r).id = r.id := by
  induction updates generalizing r with
  | nil => rfl
  | cons item rest ih =>
    simp only [chainOrd, List.foldl_cons] at *
    rw [ih, stepRow_id]

theorem chainOrd_frame (now : String) (updates : List OrderItem) (r : Row)
    (h : ∀ item ∈ updates, item.id = "" ∨ item.id ≠ r.id) :
    chainOrd now updates r = r := by
  induction updates with
  | nil => rfl
  | cons item rest ih =>
    have hitem := h item (List.mem_cons_self item rest)
    have hstep : stepRow now item r = r := by
      unfold stepRow
      rcases hitem with h0 | hne
      · simp [h0]
      · split
        · rfl
        · rw [if_neg]
          simp only [beq_iff_eq]
          exact fun hr => hne (hr ▸ rfl)
    simp only [chainOrd, List.foldl_cons, hstep]
    exact ih (fun it hit => h it (List.mem_cons_of_mem item hit))

/-! ## Claim C5: summary projection -/

/-- C5: after any sequence of upsert/delete/updateOrders operations,
`loadTodoSummaryIndex` returns exactly one summary projection per stored
record — the returned list is a permutation of the per-row projections
`summaryOfRow` (each field copied from the record) — so its count equals the
record count. -/
theorem summary_one_projection_per_record (ops : List StoreOp) (s0 : Store) :
    List.Perm (loadTodoSummaryIndex (applyOps ops s0))
      ((applyOps ops s0).todos.map summaryOfRow) ∧
    (loadTodoSummaryIndex (applyOps ops s0)).length = (applyOps ops s0).todos.length := by
  constructor
  · exact (sortLe_perm summaryLe (applyOps ops s0).todos).map summaryOfRow
  · have h := ((sortLe_perm summaryLe (applyOps ops s0).todos).map summaryOfRow).length_eq
    simpa [loadTodoSummaryIndex, List.length_map] using h

/-! ## Claim C9: upsert idempotence -/

/-- Erase the record-level last-modified stamp. -/
def scrubRow (r : Row) : Row := { r with updatedAt := "" }

/-- Erase all last-modified metadata (row stamps and the meta stamp). -/
def scrubStore (s : Store) : Store :=
  { todos := s.todos.map scrubRow, metaUpdatedAt := "" }

/-- C9: calling `upsertTodoRow` twice with the identical input leaves the
store, after the second call, in the same state as after the first call,
apart from `updatedAt` values (row-level and the meta last-modified stamp).
The timestamps of the two calls are arbitrary and independent. -/
theorem upsert_twice_idempotent (todo : TodoInput) (nA nB nM nA' nB' nM' : String)
    (s : Store) :
    scrubStore (upsertTodoRow todo nA' nB' nM' (upsertTodoRow todo nA nB nM s).2).2 =
      scrubStore (upsertTodoRow todo nA nB nM s).2 := by
  by_cases hid : (todo.id == "") = true
  · simp [upsertTodoRow, hid]
  · by_cases ha : s.todos.any (fun r => r.id == todo.id) = true
    · -- conflict path twice
      simp only [upsertTodoRow, hid, Bool.false_eq_true, if_false, ha, if_true]
      have ha2 : (s.todos.map (fun r =>
          if r.id == todo.id then upsertUpd todo (todo.updatedAt.getD nB) r else r)).any
            (fun r => r.id == todo.id) = true := by
        rw [List.any_map]
        rw [listAnyCongr _ (fun r => r.id == todo.id) s.todos ?_]
        · exact ha
        · intro r _
          simp only [Function.comp]
          by_cases hr : (r.id == todo.id) = true
          · simp [hr, upsertUpd]
          · simp [hr]
      simp only [ha2, if_true, scrubStore, List.map_map]
      refine congrArg (fun l => Store.mk l "") ?_
      apply List.map_congr_left
      intro r _
      simp only [Function.comp]
      by_cases hr : (r.id == todo.id) = true
      · have hidpres : (upsertUpd todo (todo.updatedAt.getD nB) r).id = r.id := rfl
        simp only [hr, if_true, hidpres]
        simp [upsertUpd, scrubRow]
      · simp [hr]
    · -- insert, then conflict on the fresh row
      simp only [upsertTodoRow, hid, Bool.false_eq_true, if_false, ha, if_true]
      have hnew : ((insertRowOf todo (todo.createdAt.getD nA) (todo.updatedAt.getD nB)).id
          == todo.id) = true := by
        simp [insertRowOf]
      have ha2 : ((s.todos ++
          [insertRowOf todo (todo.createdAt.getD nA) (todo.updatedAt.getD nB)]).any
            (fun r => r.id == todo.id)) = true := by
        rw [List.any_append]
        simp [hnew]
      simp only [ha, Bool.false_eq_true, if_false, ha2, if_true, scrubStore]
      refine congrArg (fun l => Store.mk l "") ?_
      rw [List.map_append, List.map_append, List.map_map, List.map_map]
      have hfr : ∀ r ∈ s.todos,
          (scrubRow ∘ fun r =>
            if r.id == todo.id then upsertUpd todo (todo.updatedAt.getD nB') r else r) r
            = scrubRow r := by
        intro r hr
        have ha' : s.todos.any (fun r => r.id == todo.id) = false :=
          Bool.eq_false_iff.mpr ha
        have : (r.id == todo.id) = false :=
          listAllNotOfAnyFalse _ s.todos ha' r hr
        simp [Function.comp, this]
      rw [List.map_congr_left hfr]
      simp only [List.map_cons, List.map_nil, Function.comp]
      rw [hnew]
      simp [upsertUpd, insertRowOf, scrubRow]

/-! ## Claim C10: conflict update preserves createdAt -/

/-- C10: when `upsertTodoRow` hits an existing id, the row count is unchanged
and the matching row is rewritten with every mutable column taken from the
input while `createdAt` keeps the stored value — any caller-supplied
`createdAt` is ignored on the update path. -/
theorem upsert_existing_preserves_createdAt (todo : TodoInput) (nA nB nM : String)
    (s : Store) (hid : todo.id ≠ "")
    (hex : s.todos.any (fun r => r.id == todo.id) = true) :
    (upsertTodoRow todo nA nB nM s).2.todos.length = s.todos.length ∧
    ∀ r ∈ s.todos, r.id = todo.id →
      ({ id := r.id, title := todo.title.getD "", content := todo.content.getD "",
         status := todo.status.getD "TODO", date := todo.date.getD "",
         ord := todo.order.getD 0, refs := toJsonArray todo.refs,
         rels := toJsonArray todo.rels,
         attachments := toJsonArray todo.attachments,
         createdAt := r.createdAt,
         updatedAt := todo.updatedAt.getD nB } : Row) ∈
        (upsertTodoRow todo nA nB nM s).2.todos := by
  have hid' : (todo.id == "") = false := by
    simpa using hid
  constructor
  · simp [upsertTodoRow, hid', hex]
  · intro r hr hrid
    simp only [upsertTodoRow, hid', Bool.false_eq_true, if_false, hex, if_true]
    have : ({ id := r.id, title := todo.title.getD "", content := todo.content.getD "",
              status := todo.status.getD "TODO", date := todo.date.getD "",
              ord := todo.order.getD 0, refs := toJsonArray todo.refs,
              rels := toJsonArray todo.rels,
              attachments := toJsonArray todo.attachments,
              createdAt := r.createdAt,
              updatedAt := todo.updatedAt.getD nB } : Row) =
        (if r.id == todo.id then upsertUpd todo (todo.updatedAt.getD nB) r else r) := by
      rw [if_pos (by simpa using hrid)]
      simp [upsertUpd]
    rw [this]
    exact List.mem_map_of_mem _ hr

def c10Row : Row :=
  { id := "t1", title := "old", content := "c", status := "TODO",
    date := "2024-01-01", ord := 0, refs := "[]", rels := "[]",
    attachments := "[]", createdAt := "A", updatedAt := "U" }

def c10Input : TodoInput :=
  { id := "t1", title := some "new", content := some "c2", status := some "DONE",
    date := some "2024-01-02", order := some 3, refs := none, rels := none,
    attachments := none, createdAt := some "B", updatedAt := some "V" }

/-- Witness for C10 at a concrete store: the caller supplies `createdAt "B"`
for an existing row created at `"A"`, and the stored row keeps `"A"`. -/
theorem upsert_existing_preserves_createdAt_witness :
    c10Input.id ≠ "" ∧
    ({ id := "t1", title := "new", content := "c2", status := "DONE",
       date := "2024-01-02", ord := 3, refs := "[]", rels := "[]",
       attachments := "[]", createdAt := "A", updatedAt := "V" } : Row) ∈
      (upsertTodoRow c10Input "x" "y" "z"
        { todos := [c10Row], metaUpdatedAt := "m" }).2.todos :=
  ⟨by decide,
    (upsert_existing_preserves_createdAt c10Input "x" "y" "z"
      { todos := [c10Row], metaUpdatedAt := "m" } (by decide) (by decide)).2
      c10Row (by decide) (by decide)⟩

/-! ## Claim C2: delete atomicity -/

/-- C2: `deleteTodoRow` is atomic.  For every failure point: if the run
surfaces an error (a rejected promise), the store is exactly the
pre-transaction store (full rollback); if it returns `true`, the store is the
full success-path result, i.e. the removal and all cascading rewrites took
effect together; `false` is returned only for the empty-id guard, which
touches nothing. -/
theorem delete_rolls_back_or_commits (failAt : Option Nat) (id now : String) (s : Store) :
    ((deleteTodoRowRun failAt id now s).2 = .error () →
      (deleteTodoRowRun failAt id now s).1 = s) ∧
    ((deleteTodoRowRun failAt id now s).2 = .ok true →
      (deleteTodoRowRun failAt id now s).1 = (deleteTodoRow id now s).2) ∧
    ((deleteTodoRowRun failAt id now s).2 = .ok false →
      (deleteTodoRowRun failAt id now s).1 = s) := by
  by_cases hid : (id == "") = true
  · refine ⟨?_, ?_, ?_⟩ <;> intro h <;> simp [deleteTodoRowRun, hid] at h ⊢
  · match failAt with
    | none =>
      refine ⟨?_, ?_, ?_⟩ <;> intro h <;>
        simp [deleteTodoRowRun, deleteTodoRow, hid] at h ⊢
    | some 0 =>
      refine ⟨?_, ?_, ?_⟩ <;> intro h <;>
        simp [deleteTodoRowRun, deleteTodoRow, hid] at h ⊢
    | some (k + 1) =>
      by_cases hk : k < (deleteSteps id now s).length
      · refine ⟨?_, ?_, ?_⟩ <;> intro h <;>
          simp [deleteTodoRowRun, deleteTodoRow, hid, hk] at h ⊢
      · refine ⟨?_, ?_, ?_⟩ <;> intro h <;>
          simp [deleteTodoRowRun, deleteTodoRow, hid, hk] at h ⊢

def c2Store : Store :=
  { todos := [{ id := "t1", title := "", content := "", status := "TODO",
                date := "2024-01-01", ord := 0, refs := "[]", rels := "[]",
                attachments := "[]", createdAt := "A", updatedAt := "U" }],
    metaUpdatedAt := "m" }

/-- Witness for C2: a failure injected at the first in-transaction statement
surfaces an error and leaves the concrete store untouched. -/
theorem delete_rolls_back_or_commits_witness :
    (deleteTodoRowRun (some 1) "t1" "T" c2Store).2 = .error () ∧
    (deleteTodoRowRun (some 1) "t1" "T" c2Store).1 = c2Store :=
  ⟨by rfl, (delete_rolls_back_or_commits (some 1) "t1" "T" c2Store).1 (by rfl)⟩

/-! ## Claim C7: reorder timestamps -/

theorem chainOrd_updatedAt (now u : String) (updates : List OrderItem) (r : Row)
    (hu : ∀ item ∈ updates, item.updatedAt.getD now = u)
    (hmatch : ∃ item ∈ updates, item.id ≠ "" ∧ item.id = r.id) :
    (chainOrd now updates r).updatedAt = u := by
  induction updates generalizing r with
  | nil =>
    rcases hmatch with ⟨item, h, _⟩
    cases h
  | cons item rest ih =>
    show (chainOrd now rest (stepRow now item r)).updatedAt = u
    by_cases hrest : ∃ it ∈ rest, it.id ≠ "" ∧ it.id = (stepRow now item r).id
    · exact ih (stepRow now item r) (fun it hit => hu it (List.mem_cons_of_mem item hit)) hrest
    · have hframe : chainOrd now rest (stepRow now item r) = stepRow now item r := by
        apply chainOrd_frame
        intro it hit
        by_cases h0 : it.id = ""
        · exact Or.inl h0
        · refine Or.inr (fun hidr => hrest ⟨it, hit, h0, hidr⟩)
      rw [hframe]
      rcases hmatch with ⟨it, hit, hne, hideq⟩
      rcases List.mem_cons.mp hit with hhead | htail
      · rw [hhead] at hne hideq
        unfold stepRow
        rw [if_neg (by simpa using hne), if_pos (by simpa using hideq.symm)]
        exact hu item (List.mem_cons_self item rest)
      · exact absurd ⟨it, htail, hne, by rw [stepRow_id]; exact hideq⟩ hrest

/-- C7 (amended): `updateTodoOrders` stamps each touched row with that item's
`updatedAt` (falling back to the batch's single `now`); hence whenever all
items of a batch carry one common timestamp `u` — as the drag-reorder caller
`onDragEnd` always arranges — every record touched by the batch ends with
`updatedAt = u`, one shared stamp for the whole batch. -/
theorem updateOrders_shared_timestamp (updates : List OrderItem) (now u : String)
    (s : Store) (hu : ∀ item ∈ updates, item.updatedAt.getD now = u) :
    ∀ row ∈ (updateTodoOrders updates now s).2.todos,
      (∃ item ∈ updates, item.id ≠ "" ∧ item.id = row.id) → row.updatedAt = u := by
  intro row hrow hmatch
  by_cases hempty : updates.isEmpty
  · rcases hmatch with ⟨item, hit, _⟩
    rw [List.isEmpty_iff.mp hempty] at hit
    cases hit
  · simp only [updateTodoOrders, hempty, Bool.false_eq_true, if_false] at hrow
    rw [ordersFold_eq_map] at hrow
    rcases List.mem_map.mp hrow with ⟨r, _, hchain⟩
    rw [← hchain]
    refine chainOrd_updatedAt now u updates r hu ?_
    rcases hmatch with ⟨item, hit, hne, hideq⟩
    refine ⟨item, hit, hne, ?_⟩
    rw [← hchain, chainOrd_id] at hideq
    exact hideq

def c7Store : Store :=
  { todos :=
      [{ id := "a", title := "", content := "", status := "TODO",
         date := "2024-01-01", ord := 0, refs := "[]", rels := "[]",
         attachments := "[]", createdAt := "A", updatedAt := "U1" },
       { id := "b", title := "", content := "", status := "TODO",
         date := "2024-01-01", ord := 1, refs := "[]", rels := "[]",
         attachments := "[]", createdAt := "B", updatedAt := "U2" }],
    metaUpdatedAt := "m" }

/-- Counterexample to C7 as stated: a batch whose two items carry different
`updatedAt` values leaves the two touched rows with the two different
timestamps `"X"` and `"Y"` — not one shared timestamp for the batch.  (The
store honors per-item `updatedAt ?? now`; only the drag-reorder caller
happens to pass one shared value.) -/
theorem updateOrders_not_single_timestamp :
    (∃ r ∈ (updateTodoOrders
        [{ id := "a", order := some 1, updatedAt := some "X" },
         { id := "b", order := some 0, updatedAt := some "Y" }] "N" c7Store).2.todos,
        r.id = "a" ∧ r.updatedAt = "X") ∧
    (∃ r ∈ (updateTodoOrders
        [{ id := "a", order := some 1, updatedAt := some "X" },
         { id := "b", order := some 0, updatedAt := some "Y" }] "N" c7Store).2.todos,
        r.id = "b" ∧ r.updatedAt = "Y") ∧
    ("X" : String) ≠ "Y" := by
  refine ⟨?_, ?_, by decide⟩ <;> decide

/-- Witness for the amended C7: a batch whose items all carry the shared
stamp `"T"` leaves the touched row `"a"` with `updatedAt = "T"`. -/
theorem updateOrders_shared_timestamp_witness :
    (∀ item ∈ [({ id := "a", order := some 1, updatedAt := some "T" } : OrderItem)],
      item.updatedAt.getD "N" = "T") ∧
    ({ id := "a", title := "", content := "", status := "TODO",
       date := "2024-01-01", ord := 1, refs := "[]", rels := "[]",
       attachments := "[]", createdAt := "A", updatedAt := "T" } : Row) ∈
      (updateTodoOrders [{ id := "a", order := some 1, updatedAt := some "T" }]
        "N" c7Store).2.todos ∧
    ({ id := "a", title := "", content := "", status := "TODO",
       date := "2024-01-01", ord := 1, refs := "[]", rels := "[]",
       attachments := "[]", createdAt := "A", updatedAt := "T" } : Row).updatedAt = "T" :=
  ⟨by decide, by decide,
    updateOrders_shared_timestamp
      [{ id := "a", order := some 1, updatedAt := some "T" }] "N" "T" c7Store
      (by decide) _ (by decide)
      ⟨{ id := "a", order := some 1, updatedAt := some "T" }, by decide, by decide, by decide⟩⟩

/-! ## Claim C8: malformed JSON degrades to empty collections -/

/-- Text that is malformed JSON, or valid JSON that is not an array. -/
def badArrayText (text : String) : Bool :=
  match jsonParse text with
  | some (.arr _) => false
  | _ => true

theorem safeJsonParseArray_bad (t : String) (h : badArrayText t = true) :
    safeJsonParseArray t = [] := by
  unfold badArrayText at h
  unfold safeJsonParseArray
  match hp : jsonParse t with
  | none => rfl
  | some .null => rfl
  | some (.bool b) => rfl
  | some (.num lex) => rfl
  | some (.str s) => rfl
  | some (.arr xs) => rw [hp] at h; simp at h
  | some (.obj fs) => rfl

/-- C8: every stored record of the queried date is returned by
`loadTodosByDate` (the function is total, so no such field ever raises), and
each of its `refs`/`rels`/`attachments` fields that holds malformed JSON or
JSON that is not an array is coerced to the empty array in the returned
record. -/
theorem byDate_malformed_fields_degrade (s : Store) (d : String) (row : Row)
    (hrow : row ∈ s.todos) (hdate : row.date = d) :
    viewOfRow row ∈ loadTodosByDate d s ∧
    (badArrayText row.refs = true → (viewOfRow row).refs = []) ∧
    (badArrayText row.rels = true → (viewOfRow row).rels = []) ∧
    (badArrayText row.attachments = true → (viewOfRow row).attachments = []) := by
  refine ⟨?_, ?_, ?_, ?_⟩
  · unfold loadTodosByDate
    apply List.mem_map_of_mem
    rw [(sortLe_perm byDateLe _).mem_iff]
    exact List.mem_filter.mpr ⟨hrow, by simp [hdate]⟩
  · intro h
    simpa [viewOfRow] using safeJsonParseArray_bad row.refs h
  · intro h
    simpa [viewOfRow] using safeJsonParseArray_bad row.rels h
  · intro h
    simpa [viewOfRow] using safeJsonParseArray_bad row.attachments h

def c8Row : Row :=
  { id := "t1", title := "x", content := "", status := "TODO",
    date := "2024-01-01", ord := 0, refs := "oops", rels := "\x7b\"a\":1\x7d",
    attachments := "[1", createdAt := "A", updatedAt := "U" }

/-- Witness for C8: a row whose `refs` text is not JSON, whose `rels` text is
a JSON object (not an array) and whose `attachments` text is truncated JSON
comes back from `loadTodosByDate` with all three fields empty. -/
theorem byDate_malformed_fields_degrade_witness :
    c8Row ∈ ({ todos := [c8Row], metaUpdatedAt := "m" } : Store).todos ∧
    viewOfRow c8Row ∈ loadTodosByDate "2024-01-01" { todos := [c8Row], metaUpdatedAt := "m" } ∧
    (viewOfRow c8Row).refs = [] ∧
    (viewOfRow c8Row).rels = [] ∧
    (viewOfRow c8Row).attachments = [] := by
  have h := byDate_malformed_fields_degrade
    { todos := [c8Row], metaUpdatedAt := "m" } "2024-01-01" c8Row
    (by decide) (by decide)
  exact ⟨by decide, h.1, h.2.1 (by decide), h.2.2.1 (by decide), h.2.2.2 (by decide)⟩

/-! ## Claim C4: reorder permutation -/

theorem pairwiseNeOfMapNodup {α β : Type} (f : α → β) (l : List α)
    (h : (l.map f).Nodup) : l.Pairwise (fun a b => f a ≠ f b) := by
  induction l with
  | nil => exact List.Pairwise.nil
  | cons x xs ih =>
    rw [List.map_cons, List.nodup_cons] at h
    refine List.pairwise_cons.mpr ⟨?_, ih h.2⟩
    intro b hb hfb
    exact h.1 (hfb ▸ List.mem_map_of_mem f hb)

theorem findOfIdNodup (updates : List OrderItem)
    (h : (updates.map OrderItem.id).Nodup) (item : OrderItem) (hm : item ∈ updates) :
    updates.find? (fun it => it.id == item.id) = some item := by
  induction updates with
  | nil => cases hm
  | cons x xs ih =>
    rw [List.map_cons, List.nodup_cons] at h
    rcases List.mem_cons.mp hm with hx | hxs
    · rw [hx]
      simp [List.find?]
    · have hne : (x.id == item.id) = false := by
        rw [beq_eq_false_iff_ne]
        intro hxi
        exact h.1 (hxi ▸ List.mem_map_of_mem OrderItem.id hxs)
      simp only [List.find?, hne]
      exact ih h.2 hxs

theorem chainOrd_found (now : String) (updates : List OrderItem) (r : Row)
    (hnd : (updates.map OrderItem.id).Nodup) (item : OrderItem)
    (hm : item ∈ updates) (hne : item.id ≠ "") (hid : item.id = r.id) :
    chainOrd now updates r =
      { r with ord := item.order.getD 0, updatedAt := item.updatedAt.getD now } := by
  induction updates generalizing r with
  | nil => cases hm
  | cons hd rest ih =>
    rw [List.map_cons, List.nodup_cons] at hnd
    show chainOrd now rest (stepRow now hd r) = _
    rcases List.mem_cons.mp hm with hhd | hrest
    · rw [hhd] at hne hid ⊢
      have hstep : stepRow now hd r =
          { r with ord := hd.order.getD 0, updatedAt := hd.updatedAt.getD now } := by
        unfold stepRow
        rw [if_neg (by simpa using hne), if_pos (by simpa using hid.symm)]
      rw [hstep]
      apply chainOrd_frame
      intro it hit
      by_cases h0 : it.id = ""
      · exact Or.inl h0
      · refine Or.inr ?_
        show it.id ≠ r.id
        intro hitid
        apply hnd.1
        rw [hid, ← hitid]
        exact List.mem_map_of_mem OrderItem.id hit
    · have hstep : stepRow now hd r = r := by
        unfold stepRow
        by_cases h0 : (hd.id == "") = true
        · rw [if_pos h0]
        · have hc : ¬(r.id == hd.id) = true := by
            intro hc
            apply hnd.1
            have hre : r.id = hd.id := by simpa using hc
            rw [← hre, ← hid]
            exact List.mem_map_of_mem OrderItem.id hrest
          rw [if_neg h0, if_neg hc]
      rw [hstep]
      exact ih r hnd.2 hrest hid

theorem chainOrd_date (now : String) (updates : List OrderItem) (r : Row) :
    (chainOrd now updates r).date = r.date := by
  induction updates generalizing r with
  | nil => rfl
  | cons item rest ih =>
    show (chainOrd now rest (stepRow now item r)).date = r.date
    rw [ih]
    unfold stepRow
    split
    · rfl
    · split <;> rfl

theorem byDateLe_iff (a b : Row) :
    byDateLe a b = true ↔ a.ord < b.ord ∨ (a.ord = b.ord ∧ a.updatedAt ≤ b.updatedAt) := by
  simp [byDateLe, decide_eq_true_iff]

theorem byDateLe_total (a b : Row) : byDateLe a b = true ∨ byDateLe b a = true := by
  rw [byDateLe_iff, byDateLe_iff]
  rcases lt_trichotomy a.ord b.ord with h | h | h
  · exact Or.inl (Or.inl h)
  · rcases le_total a.updatedAt b.updatedAt with h2 | h2
    · exact Or.inl (Or.inr ⟨h, h2⟩)
    · exact Or.inr (Or.inr ⟨h.symm, h2⟩)
  · exact Or.inr (Or.inl h)

theorem byDateLe_trans (a b c : Row) (h1 : byDateLe a b = true)
    (h2 : byDateLe b c = true) : byDateLe a c = true := by
  rw [byDateLe_iff] at *
  rcases h1 with h1 | ⟨h1, h1'⟩ <;> rcases h2 with h2 | ⟨h2, h2'⟩
  · exact Or.inl (h1.trans h2)
  · exact Or.inl (h2 ▸ h1)
  · exact Or.inl (h1 ▸ h2)
  · exact Or.inr ⟨h1.trans h2, h1'.trans h2'⟩

/-- Comparison by effective rank used to read the batch back in order. -/
def itemLe (a b : OrderItem) : Bool :=
  decide (a.order.getD 0 ≤ b.order.getD 0)

theorem itemLe_total (a b : OrderItem) : itemLe a b = true ∨ itemLe b a = true := by
  unfold itemLe
  rcases le_total (a.order.getD 0) (b.order.getD 0) with h | h
  · exact Or.inl (decide_eq_true h)
  · exact Or.inr (decide_eq_true h)

theorem itemLe_trans (a b c : OrderItem) (h1 : itemLe a b = true)
    (h2 : itemLe b c = true) : itemLe a c = true := by
  unfold itemLe at *
  exact decide_eq_true ((of_decide_eq_true h1).trans (of_decide_eq_true h2))

/-- The rank an id receives from a batch (0 if the batch does not mention it). -/
def rankIn (updates : List OrderItem) (i : String) : Int :=
  match updates.find? (fun it => it.id == i) with
  | some it => it.order.getD 0
  | none => 0

theorem rankIn_of_mem (updates : List OrderItem)
    (hnd : (updates.map OrderItem.id).Nodup) (item : OrderItem) (hm : item ∈ updates) :
    rankIn updates item.id = item.order.getD 0 := by
  unfold rankIn
  rw [findOfIdNodup updates hnd item hm]

/-- C4: applying `updateTodoOrders` with a full permutation of a date
partition's records (every record of the partition gets exactly one batch
item, all with distinct effective ranks) makes a subsequent
`loadTodosByDate` return the partition's records in exactly the new order:
its id sequence equals the batch's ids sorted by assigned rank. -/
theorem updateOrders_byDate_exact_order (updates : List OrderItem) (d now : String)
    (s : Store)
    (hnodup : (s.todos.map Row.id).Nodup)
    (hno : ∀ item ∈ updates, item.id ≠ "")
    (hdist : (updates.map (fun it => it.order.getD 0)).Nodup)
    (hperm : List.Perm (updates.map OrderItem.id)
      ((s.todos.filter (fun r => r.date == d)).map Row.id)) :
    (loadTodosByDate d (updateTodoOrders updates now s).2).map TodoView.id =
      (sortLe itemLe updates).map OrderItem.id := by
  have hPnodup : ((s.todos.filter (fun r => r.date == d)).map Row.id).Nodup :=
    ((s.todos.filter_sublist (p := fun r => r.date == d)).map Row.id).nodup hnodup
  have hupd_nodup : (updates.map OrderItem.id).Nodup :=
    (hperm.nodup_iff).mpr hPnodup
  by_cases hempty : updates.isEmpty
  · have hupdates : updates = [] := List.isEmpty_iff.mp hempty
    subst hupdates
    have hmapnil : (s.todos.filter (fun r => r.date == d)).map Row.id = [] :=
      List.Perm.eq_nil (by simpa using hperm.symm)
    have hpart : s.todos.filter (fun r => r.date == d) = [] :=
      List.map_eq_nil_iff.mp hmapnil
    simp [updateTodoOrders, loadTodosByDate, hpart, sortLe]
  · have hs' : (updateTodoOrders updates now s).2.todos =
        s.todos.map (chainOrd now updates) := by
      simp only [updateTodoOrders, hempty, Bool.false_eq_true, if_false]
      exact ordersFold_eq_map now updates s.todos
    have hfilter : (s.todos.map (chainOrd now updates)).filter (fun r => r.date == d)
        = (s.todos.filter (fun r => r.date == d)).map (chainOrd now updates) := by
      rw [List.filter_map]
      congr 1
      apply List.filter_congr
      intro r _
      simp [Function.comp, chainOrd_date]
    have hrow : ∀ r ∈ s.todos.filter (fun r => r.date == d),
        ∃ item ∈ updates, item.id = r.id ∧
          chainOrd now updates r =
            { r with ord := item.order.getD 0,
                     updatedAt := item.updatedAt.getD now } := by
      intro r hr
      have hidmem : r.id ∈ updates.map OrderItem.id := by
        rw [hperm.mem_iff]
        exact List.mem_map_of_mem Row.id hr
      rcases List.mem_map.mp hidmem with ⟨item, hitem, hitid⟩
      exact ⟨item, hitem, hitid,
        chainOrd_found now updates r hupd_nodup item hitem (hno item hitem) hitid⟩
    -- the queried rows and their rank characterization
    have hrank : ∀ r' ∈ (s.todos.filter (fun r => r.date == d)).map (chainOrd now updates),
        r'.ord = rankIn updates r'.id := by
      intro r' hr'
      rcases List.mem_map.mp hr' with ⟨r, hr, hchain⟩
      rcases hrow r hr with ⟨item, hitem, hitid, hfound⟩
      rw [← hchain, hfound]
      show item.order.getD 0 = rankIn updates r.id
      rw [← hitid, rankIn_of_mem updates hupd_nodup item hitem]
    -- ord values of the queried rows are exactly the batch ranks (up to perm)
    have hords : List.Perm
        (((s.todos.filter (fun r => r.date == d)).map (chainOrd now updates)).map Row.ord)
        (updates.map (fun it => it.order.getD 0)) := by
      have h1 : ((s.todos.filter (fun r => r.date == d)).map (chainOrd now updates)).map Row.ord
          = ((s.todos.filter (fun r => r.date == d)).map Row.id).map (rankIn updates) := by
        rw [List.map_map, List.map_map]
        apply List.map_congr_left
        intro r hr
        simp only [Function.comp]
        rcases hrow r hr with ⟨item, hitem, hitid, hfound⟩
        rw [hfound]
        show item.order.getD 0 = rankIn updates r.id
        rw [← hitid, rankIn_of_mem updates hupd_nodup item hitem]
      have h2 : updates.map (fun it => it.order.getD 0)
          = (updates.map OrderItem.id).map (rankIn updates) := by
        rw [List.map_map]
        apply List.map_congr_left
        intro item hitem
        simp only [Function.comp]
        rw [rankIn_of_mem updates hupd_nodup item hitem]
      rw [h1, h2]
      exact (hperm.symm).map (rankIn updates)
    -- strict sortedness of the byDate result
    have hA_sorted := sortLe_pairwise byDateLe byDateLe_total byDateLe_trans
      ((s.todos.filter (fun r => r.date == d)).map (chainOrd now updates))
    have hA_perm := sortLe_perm byDateLe
      ((s.todos.filter (fun r => r.date == d)).map (chainOrd now updates))
    have hA_ordnodup : ((sortLe byDateLe
        ((s.todos.filter (fun r => r.date == d)).map (chainOrd now updates))).map Row.ord).Nodup := by
      rw [List.Perm.nodup_iff (hA_perm.map Row.ord)]
      rw [List.Perm.nodup_iff hords]
      exact hdist
    have hA_ne := pairwiseNeOfMapNodup Row.ord _ hA_ordnodup
    have hA_strict : (sortLe byDateLe
        ((s.todos.filter (fun r => r.date == d)).map (chainOrd now updates))).Pairwise
          (fun a b => a.ord < b.ord) := by
      refine (hA_sorted.and hA_ne).imp ?_
      rintro a b ⟨hle, hne⟩
      rcases (byDateLe_iff a b).mp hle with h | ⟨h, _⟩
      · exact h
      · exact absurd h hne
    have hA_idsorted : ((sortLe byDateLe
        ((s.todos.filter (fun r => r.date == d)).map (chainOrd now updates))).map Row.id).Pairwise
          (fun x y => rankIn updates x < rankIn updates y) := by
      rw [List.pairwise_map]
      refine List.Pairwise.imp_of_mem ?_ hA_strict
      intro a b ha hb hab
      rw [← hrank a (hA_perm.mem_iff.mp ha), ← hrank b (hA_perm.mem_iff.mp hb)]
      exact hab
    -- strict sortedness of the batch sorted by rank
    have hB_sorted := sortLe_pairwise itemLe itemLe_total itemLe_trans updates
    have hB_perm := sortLe_perm itemLe updates
    have hB_ordnodup : ((sortLe itemLe updates).map (fun it => it.order.getD 0)).Nodup := by
      rw [List.Perm.nodup_iff (hB_perm.map (fun it => it.order.getD 0))]
      exact hdist
    have hB_ne := pairwiseNeOfMapNodup (fun it : OrderItem => it.order.getD 0) _ hB_ordnodup
    have hB_strict : (sortLe itemLe updates).Pairwise
        (fun a b => a.order.getD 0 < b.order.getD 0) := by
      refine (hB_sorted.and hB_ne).imp ?_
      rintro a b ⟨hle, hne⟩
      exact lt_of_le_of_ne (of_decide_eq_true hle) hne
    have hB_idsorted : ((sortLe itemLe updates).map OrderItem.id).Pairwise
        (fun x y => rankIn updates x < rankIn updates y) := by
      rw [List.pairwise_map]
      refine List.Pairwise.imp_of_mem ?_ hB_strict
      intro a b ha hb hab
      rw [rankIn_of_mem updates hupd_nodup a (hB_perm.mem_iff.mp ha),
          rankIn_of_mem updates hupd_nodup b (hB_perm.mem_iff.mp hb)]
      exact hab
    -- the two id lists are permutations of each other
    have hidsperm : List.Perm
        ((sortLe byDateLe
          ((s.todos.filter (fun r => r.date == d)).map (chainOrd now updates))).map Row.id)
        ((sortLe itemLe updates).map OrderItem.id) := by
      have h1 : ((s.todos.filter (fun r => r.date == d)).map (chainOrd now updates)).map Row.id
          = (s.todos.filter (fun r => r.date == d)).map Row.id := by
        rw [List.map_map]
        apply List.map_congr_left
        intro r _
        exact chainOrd_id now updates r
      refine ((hA_perm.map Row.id).trans ?_).trans (hB_perm.map OrderItem.id).symm
      rw [h1]
      exact hperm.symm
    -- assemble
    have hmain : (sortLe byDateLe
        ((s.todos.filter (fun r => r.date == d)).map (chainOrd now updates))).map Row.id
        = (sortLe itemLe updates).map OrderItem.id := by
      letI : IsAntisymm String (fun x y => rankIn updates x < rankIn updates y) :=
        ⟨fun a b hab hba => absurd (hab.trans hba) (lt_irrefl _)⟩
      exact List.eq_of_perm_of_sorted hidsperm hA_idsorted hB_idsorted
    unfold loadTodosByDate
    rw [hs', hfilter, List.map_map]
    exact hmain

def c4Store : Store :=
  { todos :=
      [{ id := "t1", title := "", content := "", status := "TODO",
         date := "2024-01-01", ord := 0, refs := "[]", rels := "[]",
         attachments := "[]", createdAt := "A1", updatedAt := "U1" },
       { id := "t2", title := "", content := "", status := "TODO",
         date := "2024-01-01", ord := 1, refs := "[]", rels := "[]",
         attachments := "[]", createdAt := "A2", updatedAt := "U2" }],
    metaUpdatedAt := "m" }

def c4Updates : List OrderItem :=
  [{ id := "t1", order := some 1, updatedAt := some "V" },
   { id := "t2", order := some 0, updatedAt := some "V" }]

/-- Witness for C4: swapping the two records of the `2024-01-01` partition
makes `loadTodosByDate` return them as `[t2, t1]`. -/
theorem updateOrders_byDate_exact_order_witness :
    (c4Store.todos.map Row.id).Nodup ∧
    (∀ item ∈ c4Updates, item.id ≠ "") ∧
    (c4Updates.map (fun it => it.order.getD 0)).Nodup ∧
    List.Perm (c4Updates.map OrderItem.id)
      ((c4Store.todos.filter (fun r => r.date == "2024-01-01")).map Row.id) ∧
    (loadTodosByDate "2024-01-01"
        (updateTodoOrders c4Updates "N" c4Store).2).map TodoView.id = ["t2", "t1"] := by
  refine ⟨by decide, by decide, by decide, by decide, ?_⟩
  have h := updateOrders_byDate_exact_order c4Updates "2024-01-01" "N" c4Store
    (by decide) (by decide) (by decide) (by decide)
  rw [h]
  decide

/-! ## Claim C6: the debounced write-back scheduler (`App.tsx`)

`scheduleUpsert` keeps two JavaScript `Map`s keyed by record id —
`pendingSavesRef` (latest queued record) and `saveTimersRef` (the armed
timer handle) — plus the set of timers armed via `window.setTimeout` that
have been neither cleared nor fired (`armed` below, each with the id its
callback closed over).  Firing a cleared handle is a no-op, exactly as a
`clearTimeout`-ed callback never runs.  The quiet window is abstracted into
event order: "N rapid edits within the quiet window" is a trace where the
fire event comes after the last schedule. -/

namespace ClientSync

def lookupKey {β : Type} (k : String) : List (String × β) → Option β
  | [] => none
  | (k', v) :: tl => if k' == k then some v else lookupKey k tl

def eraseKey {β : Type} (k : String) : List (String × β) → List (String × β)
  | [] => []
  | (k', v) :: tl => if k' == k then eraseKey k tl else (k', v) :: eraseKey k tl

/-- JavaScript `Map.set`: replace in place, else append. -/
def setKey {β : Type} (k : String) (v : β) : List (String × β) → List (String × β)
  | [] => [(k, v)]
  | (k', v') :: tl => if k' == k then (k, v) :: tl else (k', v') :: setKey k v tl

def lookupHandle (h : Nat) : List (Nat × String) → Option String
  | [] => none
  | (h', i) :: tl => if h' == h then some i else lookupHandle h tl

def clearHandle (h : Nat) (l : List (Nat × String)) : List (Nat × String) :=
  l.filter (fun p => !(p.1 == h))

structure SchedState (α : Type) where
  pending : List (String × α)
  timers : List (String × Nat)
  armed : List (Nat × String)
  nextH : Nat

inductive SchedEv (α : Type) where
  | schedule (id : String) (todo : α)
  | fire (h : Nat)
  | clearPending (id : String)
  | flush

/-- One scheduler event; returns the next state and the writes dispatched to
`upsertTodo`. -/
def step {α : Type} : SchedEv α → SchedState α → SchedState α × List α
  | .schedule id todo, s =>
    ({ pending := setKey id todo s.pending,
       timers := setKey id s.nextH s.timers,
       armed := (s.nextH, id) ::
         (match lookupKey id s.timers with
          | some h => clearHandle h s.armed
          | none => s.armed),
       nextH := s.nextH + 1 }, [])
  | .fire h, s =>
    match lookupHandle h s.armed with
    | none => (s, [])
    | some id =>
      match lookupKey id s.pending with
      | none =>
        ({ s with armed := clearHandle h s.armed, timers := eraseKey id s.timers }, [])
      | some latest =>
        ({ pending := eraseKey id s.pending, timers := eraseKey id s.timers,
           armed := clearHandle h s.armed, nextH := s.nextH }, [latest])
  | .clearPending id, s =>
    ({ pending := eraseKey id s.pending, timers := eraseKey id s.timers,
       armed :=
         (match lookupKey id s.timers with
          | some h => clearHandle h s.armed
          | none => s.armed),
       nextH := s.nextH }, [])
  | .flush, s =>
    ({ pending := [], timers := [], armed := [], nextH := s.nextH },
      s.pending.map Prod.snd)

def run {α : Type} (evs : List (SchedEv α)) (s : SchedState α) :
    SchedState α × List α :=
  evs.foldl (fun acc ev => ((step ev acc.1).1, acc.2 ++ (step ev acc.1).2)) (s, [])

/-- Scheduler invariant: at most one armed timer per record id (their ids are
distinct), every armed timer is the one currently registered in the timer
map, and all handles are below the fresh-handle counter. -/
def Inv {α : Type} (s : SchedState α) : Prop :=
  (s.armed.map Prod.snd).Nodup ∧
  (∀ p ∈ s.armed, lookupKey p.2 s.timers = some p.1) ∧
  (∀ p ∈ s.armed, p.1 < s.nextH)

def initSched (α : Type) : SchedState α :=
  { pending := [], timers := [], armed := [], nextH := 0 }

theorem lookupKey_setKey_self {β : Type} (k : String) (v : β) (l : List (String × β)) :
    lookupKey k (setKey k v l) = some v := by
  induction l with
  | nil => simp [setKey, lookupKey]
  | cons p tl ih =>
    obtain ⟨k', v'⟩ := p
    by_cases h : (k' == k) = true
    · simp [setKey, h, lookupKey]
    · simp [setKey, h, lookupKey, ih]

theorem lookupKey_setKey_ne {β : Type} (k k' : String) (v : β) (l : List (String × β))
    (h : k' ≠ k) : lookupKey k' (setKey k v l) = lookupKey k' l := by
  induction l with
  | nil => simp [setKey, lookupKey, beq_eq_false_iff_ne.mpr (fun e => h e.symm)]
  | cons p tl ih =>
    obtain ⟨k'', v''⟩ := p
    by_cases hk : (k'' == k) = true
    · have hkk : k'' = k := by simpa using hk
      simp [setKey, hk, lookupKey, beq_eq_false_iff_ne.mpr (fun e => h e.symm),
        beq_eq_false_iff_ne.mpr (fun e : k'' = k' => h (hkk ▸ e).symm)]
    · simp [setKey, hk, lookupKey, ih]

theorem lookupKey_eraseKey_self {β : Type} (k : String) (l : List (String × β)) :
    lookupKey k (eraseKey k l) = none := by
  induction l with
  | nil => rfl
  | cons p tl ih =>
    obtain ⟨k', v'⟩ := p
    by_cases h : (k' == k) = true
    · simp [eraseKey, h, ih]
    · simp [eraseKey, h, lookupKey, ih]

theorem lookupKey_eraseKey_ne {β : Type} (k k' : String) (l : List (String × β))
    (h : k' ≠ k) : lookupKey k' (eraseKey k l) = lookupKey k' l := by
  induction l with
  | nil => rfl
  | cons p tl ih =>
    obtain ⟨k'', v''⟩ := p
    by_cases hk : (k'' == k) = true
    · have hkk : k'' = k := by simpa using hk
      simp [eraseKey, hk, lookupKey, ih,
        beq_eq_false_iff_ne.mpr (fun e : k'' = k' => h (hkk ▸ e).symm)]
    · by_cases hk' : (k'' == k') = true
      · simp [eraseKey, hk, lookupKey, hk']
      · simp [eraseKey, hk, lookupKey, hk', ih]

theorem mem_clearHandle {h : Nat} {p : Nat × String} {l : List (Nat × String)}
    (hp : p ∈ clearHandle h l) : p ∈ l ∧ p.1 ≠ h := by
  have := List.mem_filter.mp hp
  exact ⟨this.1, by simpa using this.2⟩

theorem clearHandle_sublist (h : Nat) (l : List (Nat × String)) :
    (clearHandle h l).Sublist l := List.filter_sublist l

theorem lookupHandle_mem {h : Nat} {i : String} {l : List (Nat × String)}
    (hl : lookupHandle h l = some i) : (h, i) ∈ l := by
  induction l with
  | nil => cases hl
  | cons p tl ih =>
    obtain ⟨h', i'⟩ := p
    by_cases hh : (h' == h) = true
    · have he : h' = h := by simpa using hh
      rw [lookupHandle, if_pos hh] at hl
      have hi : i' = i := by simpa using hl
      rw [he, hi] at *
      exact List.mem_cons_self _ _
    · rw [lookupHandle, if_neg hh] at hl
      exact List.mem_cons_of_mem _ (ih hl)

/-- With distinct armed ids there is at most one armed entry per id. -/
theorem armed_unique_of_nodup {l : List (Nat × String)}
    (hnd : (l.map Prod.snd).Nodup) {h₁ h₂ : Nat} {i : String}
    (m₁ : (h₁, i) ∈ l) (m₂ : (h₂, i) ∈ l) : h₁ = h₂ := by
  induction l with
  | nil => cases m₁
  | cons p tl ih =>
    rw [List.map_cons, List.nodup_cons] at hnd
    rcases List.mem_cons.mp m₁ with e₁ | m₁' <;>
      rcases List.mem_cons.mp m₂ with e₂ | m₂'
    · exact congrArg Prod.fst (e₁.trans e₂.symm)
    · exfalso
      apply hnd.1
      have hi : i ∈ List.map Prod.snd tl := by
        simpa using List.mem_map_of_mem Prod.snd m₂'
      have hp2 : p.2 = i := by rw [← e₁]
      rw [hp2]
      exact hi
    · exfalso
      apply hnd.1
      have hi : i ∈ List.map Prod.snd tl := by
        simpa using List.mem_map_of_mem Prod.snd m₁'
      have hp2 : p.2 = i := by rw [← e₂]
      rw [hp2]
      exact hi
    · exact ih hnd.2 m₁' m₂'

/-- The armed list after clearing id's registered timer (the `schedule` and
`clearPending` paths) keeps no entry for that id and is a sublist. -/
theorem armedRest_spec {α : Type} (s : SchedState α) (id : String)
    (hagree : ∀ p ∈ s.armed, lookupKey p.2 s.timers = some p.1) :
    (match lookupKey id s.timers with
     | some h => clearHandle h s.armed
     | none => s.armed).Sublist s.armed ∧
    (∀ p ∈ (match lookupKey id s.timers with
            | some h => clearHandle h s.armed
            | none => s.armed), p.2 ≠ id) := by
  match hl : lookupKey id s.timers with
  | some h =>
    refine ⟨clearHandle_sublist h s.armed, ?_⟩
    intro p hp hpid
    have hm := mem_clearHandle hp
    have hag := hagree p hm.1
    rw [hpid, hl] at hag
    exact hm.2 (by injection hag with e; exact e.symm)
  | none =>
    refine ⟨List.Sublist.refl _, ?_⟩
    intro p hp hpid
    have hag := hagree p hp
    rw [hpid, hl] at hag
    cases hag

theorem inv_step {α : Type} (ev : SchedEv α) (s : SchedState α) (hInv : Inv s) :
    Inv (step ev s).1 := by
  obtain ⟨hnd, hagree, hfresh⟩ := hInv
  unfold Inv
  match ev with
  | .flush => refine ⟨?_, ?_, ?_⟩ <;> simp [step]
  | .schedule id todo =>
    obtain ⟨hsub, hnotid⟩ := armedRest_spec s id hagree
    simp only [step]
    refine ⟨?_, ?_, ?_⟩
    · rw [List.map_cons, List.nodup_cons]
      constructor
      · intro hmem
        rcases List.mem_map.mp hmem with ⟨p, hp, hpid⟩
        exact hnotid p hp hpid
      · exact (hsub.map Prod.snd).nodup hnd
    · intro p hp
      rcases List.mem_cons.mp hp with e | hp'
      · rw [e]
        exact lookupKey_setKey_self id s.nextH s.timers
      · rw [lookupKey_setKey_ne id p.2 s.nextH s.timers (hnotid p hp')]
        exact hagree p (hsub.mem hp')
    · intro p hp
      rcases List.mem_cons.mp hp with e | hp'
      · rw [e]
        exact Nat.lt_succ_self s.nextH
      · exact Nat.lt_trans (hfresh p (hsub.mem hp')) (Nat.lt_succ_self s.nextH)
  | .fire h =>
    match hl : lookupHandle h s.armed with
    | none =>
      simp only [step, hl]
      exact ⟨hnd, hagree, hfresh⟩
    | some id =>
      have hmem : (h, id) ∈ s.armed := lookupHandle_mem hl
      have hid_ne : ∀ p ∈ clearHandle h s.armed, p.2 ≠ id := by
        intro p hp hpid
        have hm := mem_clearHandle hp
        have hph : p.1 = h := by
          have hpmem : (p.1, id) ∈ s.armed := by
            have : p = (p.1, id) := by
              rw [← hpid]
            rw [← this]
            exact hm.1
          exact armed_unique_of_nodup hnd hpmem hmem
        exact hm.2 hph
      have hN : ((clearHandle h s.armed).map Prod.snd).Nodup :=
        ((clearHandle_sublist h s.armed).map Prod.snd).nodup hnd
      have hA : ∀ p ∈ clearHandle h s.armed,
          lookupKey p.2 (eraseKey id s.timers) = some p.1 := by
        intro p hp
        rw [lookupKey_eraseKey_ne id p.2 s.timers (hid_ne p hp)]
        exact hagree p ((clearHandle_sublist h s.armed).mem hp)
      have hF : ∀ p ∈ clearHandle h s.armed, p.1 < s.nextH := by
        intro p hp
        exact hfresh p ((clearHandle_sublist h s.armed).mem hp)
      match hp : lookupKey id s.pending with
      | none =>
        simp only [step, hl, hp]
        exact ⟨hN, hA, hF⟩
      | some latest =>
        simp only [step, hl, hp]
        exact ⟨hN, hA, hF⟩
  | .clearPending id =>
    obtain ⟨hsub, hnotid⟩ := armedRest_spec s id hagree
    simp only [step]
    refine ⟨(hsub.map Prod.snd).nodup hnd, ?_, ?_⟩
    · intro p hp
      rw [lookupKey_eraseKey_ne id p.2 s.timers (hnotid p hp)]
      exact hagree p (hsub.mem hp)
    · intro p hp
      exact hfresh p (hsub.mem hp)

theorem run_acc {α : Type} (evs : List (SchedEv α)) (st : SchedState α) (out : List α) :
    evs.foldl (fun acc ev => ((step ev acc.1).1, acc.2 ++ (step ev acc.1).2)) (st, out)
      = ((run evs st).1, out ++ (run evs st).2) := by
  induction evs generalizing st out with
  | nil => simp [run]
  | cons ev evs ih =>
    simp only [run, List.foldl_cons]
    rw [ih, ih]
    simp

theorem run_cons {α : Type} (ev : SchedEv α) (evs : List (SchedEv α)) (st : SchedState α) :
    run (ev :: evs) st =
      ((run evs (step ev st).1).1, (step ev st).2 ++ (run evs (step ev st).1).2) := by
  simp only [run, List.foldl_cons]
  rw [run_acc]
  simp [run]

theorem filter_snd_length_le_one {l : List (Nat × String)}
    (hnd : (l.map Prod.snd).Nodup) (id : String) :
    (l.filter (fun p => p.2 == id)).length ≤ 1 := by
  induction l with
  | nil => simp
  | cons p tl ih =>
    rw [List.map_cons, List.nodup_cons] at hnd
    by_cases hp : (p.2 == id) = true
    · have hempty : tl.filter (fun q => q.2 == id) = [] := by
        rw [List.filter_eq_nil_iff]
        intro q hq hq2
        apply hnd.1
        have hqid : q.2 = id := by simpa using hq2
        have hpid : p.2 = id := by simpa using hp
        rw [hpid, ← hqid]
        exact List.mem_map_of_mem Prod.snd hq
      simp [List.filter_cons, hp, hempty]
    · simp only [List.filter_cons, hp, Bool.false_eq_true, if_false]
      exact ih hnd.2

/-- C6: debounce coalescing and the single-writer discipline.  From any state
satisfying the scheduler invariant, a burst of N edits to one record id
(no timer fires in between, i.e. all within the quiet window) dispatches no
write while scheduling; the invariant — hence at most one armed (pending)
debounced write for any id — still holds afterwards, the burst leaves at most
one armed timer for the edited id, and firing the timer registered for that
id dispatches exactly one write, carrying the last edit, after which nothing
remains queued for the id.  Earlier timers of the burst are no longer armed
(each schedule cleared its predecessor), and firing an unarmed handle is a
no-op by the clearTimeout semantics of `step`. -/
theorem debounce_coalesces {α : Type} (s : SchedState α) (id : String) (ts : List α)
    (hInv : Inv s) (hne : ts ≠ []) :
    (run (ts.map (SchedEv.schedule id)) s).2 = [] ∧
    Inv (run (ts.map (SchedEv.schedule id)) s).1 ∧
    ((run (ts.map (SchedEv.schedule id)) s).1.armed.filter
        (fun p => p.2 == id)).length ≤ 1 ∧
    ∃ h, lookupKey id (run (ts.map (SchedEv.schedule id)) s).1.timers = some h ∧
      (step (SchedEv.fire h) (run (ts.map (SchedEv.schedule id)) s).1).2
        = [ts.getLast hne] ∧
      lookupKey id
        (step (SchedEv.fire h) (run (ts.map (SchedEv.schedule id)) s).1).1.pending
        = none := by
  induction ts generalizing s with
  | nil => exact absurd rfl hne
  | cons t ts ih =>
    rw [List.map_cons, run_cons]
    by_cases hts : ts = []
    · subst hts
      simp only [List.map_nil, run, List.foldl_nil]
      refine ⟨?_, ?_, ?_, ?_⟩
      · show (step (SchedEv.schedule id t) s).2 ++ [] = []
        simp [step]
      · show Inv (step (SchedEv.schedule id t) s).1
        exact inv_step _ _ hInv
      · exact filter_snd_length_le_one (inv_step (SchedEv.schedule id t) s hInv).1 id
      · refine ⟨s.nextH, ?_, ?_, ?_⟩
        · exact lookupKey_setKey_self id s.nextH s.timers
        · simp only [step, lookupHandle, beq_self_eq_true, if_true,
            lookupKey_setKey_self]
          rfl
        · simp only [step, lookupHandle, beq_self_eq_true, if_true,
            lookupKey_setKey_self]
          exact lookupKey_eraseKey_self id _
    · have hInv' := inv_step (SchedEv.schedule id t) s hInv
      obtain ⟨hemit, hInvN, hcount, h, hh, hfire, hpend⟩ :=
        ih ((step (SchedEv.schedule id t) s).1) hInv' hts
      refine ⟨?_, hInvN, hcount, h, hh, ?_, hpend⟩
      · show [] ++ (run (List.map (SchedEv.schedule id) ts)
          (step (SchedEv.schedule id t) s).1).2 = []
        rw [List.nil_append, hemit]
      · rw [hfire]
        congr 1
        exact (List.getLast_cons hts).symm

/-- Witness for C6: three rapid edits 1, 2, 3 to record `"a"` from the empty
scheduler dispatch nothing while scheduling; the timer map holds handle 2
(the third timer armed), and firing it dispatches exactly `[3]`. -/
theorem debounce_coalesces_witness :
    Inv (initSched Nat) ∧ ([1, 2, 3] : List Nat) ≠ [] ∧
    (run (([1, 2, 3] : List Nat).map (SchedEv.schedule "a")) (initSched Nat)).2 = [] ∧
    lookupKey "a"
      (run (([1, 2, 3] : List Nat).map (SchedEv.schedule "a")) (initSched Nat)).1.timers
      = some 2 ∧
    (step (SchedEv.fire 2)
      (run (([1, 2, 3] : List Nat).map (SchedEv.schedule "a")) (initSched Nat)).1).2
      = [3] := by
  have hInv : Inv (initSched Nat) := by
    unfold Inv
    refine ⟨?_, ?_, ?_⟩ <;> simp [initSched]
  refine ⟨hInv, by decide,
    (debounce_coalesces (initSched Nat) "a" [1, 2, 3] hInv (by decide)).1,
    by decide, by decide⟩

end ClientSync

/-! ## Well-formed JSON values and the parse/stringify round trip

`jsonOkB` captures the values whose canonical `JSON.stringify` text parses
back to the value itself: number lexemes the lexer accepts in full, strings
without control characters (their quotes and backslashes round-trip through
escapes), objects with distinct keys.  Every text this store writes is the
stringify of such a value. -/

def strOkChars (l : List Char) : Bool := l.all (fun c => decide (32 ≤ c.toNat))

def numOk (lex : String) : Bool :=
  match lexNumber lex.toList with
  | some (out, rest) => out == lex.toList && rest.isEmpty
  | none => false

mutual
def jsonOkB : Json → Bool
  | .null => true
  | .bool _ => true
  | .num lex => numOk lex
  | .str s => strOkChars s.toList
  | .arr xs => jlistOkB xs
  | .obj fs => jfieldsOkB fs
def jlistOkB : JList → Bool
  | .nil => true
  | .cons x tl => jsonOkB x && jlistOkB tl
def jfieldsOkB : JFields → Bool
  | .nil => true
  | .cons k v tl =>
    strOkChars k.toList && jsonOkB v && (tl.lookup k).isNone && jfieldsOkB tl
end

mutual
def jfuel : Json → Nat
  | .null => 1
  | .bool _ => 1
  | .num _ => 1
  | .str _ => 1
  | .arr xs => 1 + jlfuel xs
  | .obj fs => 1 + jffuel fs
def jlfuel : JList → Nat
  | .nil => 1
  | .cons x tl => 1 + jfuel x + jlfuel tl
def jffuel : JFields → Nat
  | .nil => 1
  | .cons _ v tl => 1 + jfuel v + jffuel tl
end

/-- What may legally follow a serialized value inside a canonical text:
nothing, or a separator/closer. -/
def sepOk (rest : List Char) : Bool :=
  match rest with
  | [] => true
  | c :: _ => c == ',' || c == ']' || c == '}'

/-- Heads that cannot extend a number lexeme. -/
def headNotNum (rest : List Char) : Bool :=
  match rest with
  | [] => true
  | c :: _ => !(c.isDigit || c == '.' || c == 'e' || c == 'E')

theorem headNotNum_of_sepOk (rest : List Char) (h : sepOk rest = true) :
    headNotNum rest = true := by
  match rest with
  | [] => rfl
  | c :: t =>
    have h' : c = ',' ∨ c = ']' ∨ c = '}' := by
      simpa [sepOk, or_assoc] using h
    rcases h' with rfl | rfl | rfl <;> rfl

theorem skipWs_not_ws (c : Char) (l : List Char) (h : isWsChar c = false) :
    skipWs (c :: l) = c :: l := by
  unfold skipWs
  rw [h]
  simp

theorem headNotNum_not_digit {c : Char} {t : List Char}
    (h : headNotNum (c :: t) = true) : c.isDigit = false := by
  cases hd : c.isDigit
  · rfl
  · exfalso
    simp [headNotNum, hd] at h

theorem scanDigits_append (xs rest : List Char) (ds r : List Char)
    (h : scanDigits xs = (ds, r))
    (hside : r = [] → headNotNum rest = true) :
    scanDigits (xs ++ rest) = (ds, r ++ rest) := by
  induction xs generalizing ds r with
  | nil =>
    unfold scanDigits at h
    injection h with h1 h2
    subst h1
    subst h2
    simp only [List.nil_append]
    match rest with
    | [] => rfl
    | c :: t =>
      have hd : c.isDigit = false := headNotNum_not_digit (hside rfl)
      unfold scanDigits
      rw [hd]
      simp
  | cons c cs ih =>
    by_cases hd : c.isDigit = true
    · simp only [scanDigits, hd, if_true] at h
      injection h with h1 h2
      have hih := ih (scanDigits cs).1 (scanDigits cs).2 rfl
        (fun he => hside (h2.symm.trans he))
      simp only [List.cons_append, scanDigits, hd, if_true]
      show (c :: (scanDigits (cs ++ rest)).1, (scanDigits (cs ++ rest)).2)
        = (ds, r ++ rest)
      rw [hih, h1, h2]
    · have hd' : c.isDigit = false := by simpa using hd
      simp only [scanDigits, hd', Bool.false_eq_true, if_false] at h
      injection h with h1 h2
      simp only [List.cons_append, scanDigits, hd', Bool.false_eq_true, if_false]
      rw [← h1, ← h2]
      simp

theorem lexInt_append (xs rest : List Char) (ip r : List Char)
    (h : lexInt xs = some (ip, r))
    (hside : r = [] → headNotNum rest = true) :
    lexInt (xs ++ rest) = some (ip, r ++ rest) := by
  match xs with
  | [] => cases h
  | c :: cs =>
    by_cases h0 : (c == '0') = true
    · simp only [lexInt, h0, if_true] at h
      injection h with h1
      injection h1 with h1 h2
      simp only [List.cons_append, lexInt, h0, if_true]
      rw [← h1, ← h2]
    · have h0' : (c == '0') = false := by simpa using h0
      by_cases hd : c.isDigit = true
      · simp only [lexInt, h0', Bool.false_eq_true, if_false, hd, if_true] at h
        injection h with h1
        injection h1 with h1 h2
        simp only [List.cons_append, lexInt, h0', Bool.false_eq_true, if_false,
          hd, if_true]
        show some (c :: (scanDigits (cs ++ rest)).1, (scanDigits (cs ++ rest)).2)
          = some (ip, r ++ rest)
        rw [scanDigits_append cs rest (scanDigits cs).1 (scanDigits cs).2 rfl
          (fun he => hside (h2.symm.trans he))]
        rw [h1, h2]
      · have hd' : c.isDigit = false := by simpa using hd
        simp only [lexInt, h0', Bool.false_eq_true, if_false, hd', if_false] at h
        cases h

theorem headNotNum_not_dot {c : Char} {t : List Char}
    (h : headNotNum (c :: t) = true) : (c == '.') = false := by
  cases hd : (c == '.')
  · rfl
  · exfalso
    simp [headNotNum, hd] at h

theorem headNotNum_not_e {c : Char} {t : List Char}
    (h : headNotNum (c :: t) = true) : (c == 'e') = false := by
  cases hd : (c == 'e')
  · rfl
  · exfalso
    simp [headNotNum, hd] at h

theorem headNotNum_not_E {c : Char} {t : List Char}
    (h : headNotNum (c :: t) = true) : (c == 'E') = false := by
  cases hd : (c == 'E')
  · rfl
  · exfalso
    simp [headNotNum, hd] at h

theorem lexFrac_append (xs rest : List Char) (fp r : List Char)
    (h : lexFrac xs = some (fp, r))
    (hside : r = [] → headNotNum rest = true) :
    lexFrac (xs ++ rest) = some (fp, r ++ rest) := by
  match xs with
  | [] =>
    simp only [lexFrac] at h
    injection h with h1
    injection h1 with h1 h2
    subst h1
    subst h2
    simp only [List.nil_append]
    match rest with
    | [] => rfl
    | c :: t =>
      have hnn := hside rfl
      simp only [lexFrac, headNotNum_not_dot hnn, Bool.false_eq_true, if_false]
  | c :: cs =>
    by_cases hdot : (c == '.') = true
    · rcases hsd : scanDigits cs with ⟨ds0, r0⟩
      simp only [lexFrac, hdot, if_true, hsd] at h
      match ds0, h with
      | d :: ds', h =>
        injection h with h1
        injection h1 with h1 h2
        subst h1
        subst h2
        have hsa : scanDigits (cs ++ rest) = (d :: ds', r0 ++ rest) :=
          scanDigits_append cs rest (d :: ds') r0 hsd hside
        simp only [List.cons_append, lexFrac, hdot, if_true, hsa]
    · have hdot' : (c == '.') = false := by simpa using hdot
      simp only [lexFrac, hdot', Bool.false_eq_true, if_false] at h
      injection h with h1
      injection h1 with h1 h2
      subst h1
      subst h2
      simp only [List.cons_append, lexFrac, hdot', Bool.false_eq_true, if_false]

theorem lexExp_append (xs rest : List Char) (ep r : List Char)
    (h : lexExp xs = some (ep, r))
    (hside : r = [] → headNotNum rest = true) :
    lexExp (xs ++ rest) = some (ep, r ++ rest) := by
  match xs with
  | [] =>
    simp only [lexExp] at h
    injection h with h1
    injection h1 with h1 h2
    subst h1
    subst h2
    simp only [List.nil_append]
    match rest with
    | [] => rfl
    | c :: t =>
      have hnn := hside rfl
      simp only [lexExp, headNotNum_not_e hnn, headNotNum_not_E hnn,
        Bool.or_self, Bool.false_eq_true, if_false]
  | c :: cs =>
    by_cases he : (c == 'e' || c == 'E') = true
    · match cs with
      | [] =>
        simp only [lexExp, he, if_true, scanDigits] at h
        cases h
      | s :: cs' =>
        by_cases hsgn : (s == '+' || s == '-') = true
        · rcases hsd : scanDigits cs' with ⟨ds0, r0⟩
          simp only [lexExp, he, if_true, hsgn, hsd] at h
          match ds0, h with
          | d :: ds', h =>
            injection h with h1
            injection h1 with h1 h2
            subst h1
            subst h2
            have hsa : scanDigits (cs' ++ rest) = (d :: ds', r0 ++ rest) :=
              scanDigits_append cs' rest (d :: ds') r0 hsd hside
            simp only [List.cons_append, lexExp, he, if_true, hsgn, hsa]
        · have hsgn' : (s == '+' || s == '-') = false := by simpa using hsgn
          rcases hsd : scanDigits (s :: cs') with ⟨ds0, r0⟩
          simp only [lexExp, he, if_true, hsgn', Bool.false_eq_true, if_false,
            hsd] at h
          match ds0, h with
          | d :: ds', h =>
            injection h with h1
            injection h1 with h1 h2
            subst h1
            subst h2
            have hsa : scanDigits (s :: (cs' ++ rest)) = (d :: ds', r0 ++ rest) :=
              scanDigits_append (s :: cs') rest (d :: ds') r0 hsd hside
            simp only [List.cons_append, lexExp, he, if_true, hsgn',
              Bool.false_eq_true, if_false, hsa]
    · have he' : (c == 'e' || c == 'E') = false := by simpa using he
      simp only [lexExp, he', Bool.false_eq_true, if_false] at h
      injection h with h1
      injection h1 with h1 h2
      subst h1
      subst h2
      simp only [List.cons_append, lexExp, he', Bool.false_eq_true, if_false]

theorem lexUnsigned_append (xs rest : List Char) (u r : List Char)
    (h : lexUnsigned xs = some (u, r))
    (hside : r = [] → headNotNum rest = true) :
    lexUnsigned (xs ++ rest) = some (u, r ++ rest) := by
  rcases hInt : lexInt xs with _ | ⟨ip, cs2⟩
  · simp [lexUnsigned, hInt] at h
  · rcases hFrac : lexFrac cs2 with _ | ⟨fp, cs3⟩
    · simp [lexUnsigned, hInt, hFrac] at h
    · rcases hExp : lexExp cs3 with _ | ⟨ep, r'⟩
      · simp [lexUnsigned, hInt, hFrac, hExp] at h
      · simp only [lexUnsigned, hInt, hFrac, hExp] at h
        injection h with h1
        injection h1 with h1 h2
        subst h1
        subst h2
        -- if an earlier stage already consumed everything, so did the later ones
        have hr3 : cs3 = [] → r' = [] := by
          intro h3
          subst h3
          simp only [lexExp] at hExp
          injection hExp with hE
          injection hE with _ hE2
          exact hE2.symm
        have hr2 : cs2 = [] → r' = [] := by
          intro h2'
          subst h2'
          simp only [lexFrac] at hFrac
          injection hFrac with hF
          injection hF with _ hF2
          exact hr3 hF2.symm
        have hIa := lexInt_append xs rest ip cs2 hInt
          (fun he => hside (hr2 he))
        have hFa := lexFrac_append cs2 rest fp cs3 hFrac
          (fun he => hside (hr3 he))
        have hEa := lexExp_append cs3 rest ep r' hExp hside
        simp only [lexUnsigned, hIa, hFa, hEa]
  -- the result lexeme is unchanged and the tail is extended

theorem lexNumber_append (xs rest : List Char) (out r : List Char)
    (h : lexNumber xs = some (out, r))
    (hside : r = [] → headNotNum rest = true) :
    lexNumber (xs ++ rest) = some (out, r ++ rest) := by
  match xs with
  | [] => cases h
  | c :: cs =>
    by_cases hm : (c == '-') = true
    · rcases hU : lexUnsigned cs with _ | ⟨u, r'⟩
      · simp [lexNumber, hm, hU] at h
      · simp only [lexNumber, hm, if_true, hU, Option.map] at h
        injection h with h1
        injection h1 with h1 h2
        subst h1
        subst h2
        have hUa := lexUnsigned_append cs rest u r' hU hside
        simp only [List.cons_append, lexNumber, hm, if_true, hUa, Option.map]
    · have hm' : (c == '-') = false := by simpa using hm
      simp only [lexNumber, hm', Bool.false_eq_true, if_false] at h
      have hUa := lexUnsigned_append (c :: cs) rest out r h hside
      simp only [List.cons_append, lexNumber, hm', Bool.false_eq_true, if_false]
      exact hUa

/-- A well-formed number lexeme embedded in a larger text lexes to exactly
itself when followed by a separator. -/
theorem lexNumber_roundtrip (lex : String) (h : numOk lex = true) (rest : List Char)
    (hside : headNotNum rest = true) :
    lexNumber (lex.toList ++ rest) = some (lex.toList, rest) := by
  unfold numOk at h
  rcases hL : lexNumber lex.toList with _ | ⟨out, r'⟩
  · rw [hL] at h
    cases h
  · rw [hL] at h
    have hout : out = lex.toList := by
      have := (Bool.and_eq_true _ _).mp h
      simpa using this.1
    have hr : r' = [] := by
      have := (Bool.and_eq_true _ _).mp h
      simpa [List.isEmpty_iff] using this.2
    subst hout
    subst hr
    have := lexNumber_append lex.toList rest lex.toList [] hL (fun _ => hside)
    simpa using this

theorem beq_char_false_of_toNat_lt {c d : Char} (hc : 32 ≤ c.toNat)
    (hd : d.toNat < 32) : (c == d) = false := by
  cases hb : (c == d)
  · rfl
  · exfalso
    have : c = d := by simpa using hb
    subst this
    omega

theorem decodeStr_encChars (l : List Char) (hok : strOkChars l = true)
    (rest : List Char) :
    decodeStr (encChars l ++ '"' :: rest) = some (l, rest) := by
  induction l with
  | nil =>
    simp only [encChars, List.nil_append]
    rw [decodeStr.eq_def]
    simp
  | cons c cs ih =>
    have hsplit : 32 ≤ c.toNat ∧ ∀ x ∈ cs, 32 ≤ x.toNat := by
      simpa [strOkChars] using hok
    have hc : 32 ≤ c.toNat := hsplit.1
    have hok' : strOkChars cs = true := by
      simpa [strOkChars] using hsplit.2
    by_cases hq : (c == '"') = true
    · have hceq : c = '"' := by simpa using hq
      subst hceq
      have he : encChar '"' = ['\\', '"'] := by decide
      simp only [encChars, he, List.cons_append, List.nil_append]
      rw [decodeStr.eq_def]
      simp [ih hok']
    · by_cases hb : (c == '\\') = true
      · have hceq : c = '\\' := by simpa using hb
        subst hceq
        have he : encChar '\\' = ['\\', '\\'] := by decide
        simp only [encChars, he, List.cons_append, List.nil_append]
        rw [decodeStr.eq_def]
        simp [ih hok']
      · have hq' : (c == '"') = false := by simpa using hq
        have hb' : (c == '\\') = false := by simpa using hb
        have h08 : (c == '\x08') = false := beq_char_false_of_toNat_lt hc (by decide)
        have h09 : (c == '\x09') = false := beq_char_false_of_toNat_lt hc (by decide)
        have h0a : (c == '\x0a') = false := beq_char_false_of_toNat_lt hc (by decide)
        have h0c : (c == '\x0c') = false := beq_char_false_of_toNat_lt hc (by decide)
        have h0d : (c == '\x0d') = false := beq_char_false_of_toNat_lt hc (by decide)
        have hlt : ¬ c.toNat < 32 := Nat.not_lt.mpr hc
        have henc : encChar c = [c] := by
          simp [encChar, hq', hb', h08, h09, h0a, h0c, h0d, hlt]
        simp only [encChars, henc, List.cons_append, List.nil_append]
        rw [decodeStr.eq_def]
        simp only [hq', hb', Bool.false_eq_true, if_false]
        simp [if_neg hlt, ih hok']

theorem beq_false_of_pred (P : Char → Bool) (c d : Char) (hP : P c = true)
    (hd : P d = false) : (c == d) = false := by
  cases hb : (c == d)
  · rfl
  · exfalso
    have : c = d := by simpa using hb
    subst this
    rw [hP] at hd
    cases hd

theorem mutual_fuel_pos :
    (∀ v : Json, 1 ≤ jfuel v) ∧ (∀ xs : JList, 1 ≤ jlfuel xs) ∧
      (∀ fs : JFields, 1 ≤ jffuel fs) := by
  refine ⟨?_, ?_, ?_⟩
  · intro v
    match v with
    | .null | .bool _ | .num _ | .str _ => exact le_refl 1
    | .arr xs => simp [jfuel]
    | .obj fs => simp [jfuel]
  · intro xs
    match xs with
    | .nil => exact le_refl 1
    | .cons x tl =>
      simp only [jlfuel]
      omega
  · intro fs
    match fs with
    | .nil => exact le_refl 1
    | .cons k v tl =>
      simp only [jffuel]
      omega

theorem numHead (lex : String) (h : numOk lex = true) :
    ∃ c cs, lex.toList = c :: cs ∧ (c = '-' ∨ c.isDigit = true) := by
  unfold numOk at h
  match hlt : lex.toList with
  | [] =>
    rw [hlt] at h
    simp [lexNumber] at h
  | c :: cs =>
    rw [hlt] at h
    refine ⟨c, cs, rfl, ?_⟩
    by_cases hm : (c == '-') = true
    · exact Or.inl (by simpa using hm)
    · right
      by_cases hd : c.isDigit = true
      · exact hd
      · exfalso
        have hm' : (c == '-') = false := by simpa using hm
        have hd' : c.isDigit = false := by simpa using hd
        have h0 : (c == '0') = false := by
          cases h0 : (c == '0')
          · rfl
          · exfalso
            have : c = '0' := by simpa using h0
            subst this
            exact hd (by decide)
        simp only [lexNumber, hm', Bool.false_eq_true, if_false, lexUnsigned,
          lexInt, h0, hd', if_false] at h

/-- Facts about the first character of a serialized number that steer
`parseValue` into its number branch. -/
theorem numHeadFacts (c : Char) (hc : c = '-' ∨ c.isDigit = true) :
    isWsChar c = false ∧ (c == 'n') = false ∧ (c == 't') = false ∧
    (c == 'f') = false ∧ (c == '"') = false ∧ (c == '[') = false ∧
    (c == '{') = false ∧ (c == '-' || c.isDigit) = true ∧
    (c == ']') = false ∧ (c == '}') = false := by
  rcases hc with rfl | hd
  · refine ⟨by decide, by decide, by decide, by decide, by decide, by decide,
      by decide, by decide, by decide, by decide⟩
  · have f1 := beq_false_of_pred Char.isDigit c 'n' hd (by decide)
    have f2 := beq_false_of_pred Char.isDigit c 't' hd (by decide)
    have f3 := beq_false_of_pred Char.isDigit c 'f' hd (by decide)
    have f4 := beq_false_of_pred Char.isDigit c '"' hd (by decide)
    have f5 := beq_false_of_pred Char.isDigit c '[' hd (by decide)
    have f6 := beq_false_of_pred Char.isDigit c '{' hd (by decide)
    have f7 := beq_false_of_pred Char.isDigit c ']' hd (by decide)
    have f8 := beq_false_of_pred Char.isDigit c '}' hd (by decide)
    have fw1 := beq_false_of_pred Char.isDigit c ' ' hd (by decide)
    have fw2 := beq_false_of_pred Char.isDigit c '\t' hd (by decide)
    have fw3 := beq_false_of_pred Char.isDigit c '\n' hd (by decide)
    have fw4 := beq_false_of_pred Char.isDigit c '\r' hd (by decide)
    refine ⟨by simp [isWsChar, fw1, fw2, fw3, fw4], f1, f2, f3, f4, f5, f6,
      by simp [hd], f7, f8⟩

/-- The first character of a canonical serialization: never whitespace, never
a closer. -/
theorem jsonStr_head (v : Json) (hok : jsonOkB v = true) :
    ∃ c cs, jsonStr v = c :: cs ∧ isWsChar c = false ∧ (c == ']') = false ∧
      (c == '}') = false := by
  match v with
  | .null => exact ⟨'n', _, rfl, by decide, by decide, by decide⟩
  | .bool true => exact ⟨'t', _, rfl, by decide, by decide, by decide⟩
  | .bool false => exact ⟨'f', _, rfl, by decide, by decide, by decide⟩
  | .str s => exact ⟨'"', _, rfl, by decide, by decide, by decide⟩
  | .arr xs => exact ⟨'[', _, rfl, by decide, by decide, by decide⟩
  | .obj fs => exact ⟨'{', _, rfl, by decide, by decide, by decide⟩
  | .num lex =>
    have hok' : numOk lex = true := by simpa [jsonOkB] using hok
    obtain ⟨c, cs, hlt, hc⟩ := numHead lex hok'
    obtain ⟨hw, _, _, _, _, _, _, _, h7, h8⟩ := numHeadFacts c hc
    exact ⟨c, cs, by simpa [jsonStr] using hlt, hw, h7, h8⟩

theorem dedupCons_not_mem (k : String) (v : Json) (tl : JFields)
    (h : (tl.lookup k).isNone = true) :
    JFields.dedupCons k v tl = .cons k v tl := by
  unfold JFields.dedupCons
  rcases hl : tl.lookup k with _ | v'
  · rfl
  · rw [hl] at h
    cases h

theorem string_mk_toList (s : String) : String.mk s.toList = s := rfl

theorem sepOk_comma (X : List Char) : sepOk (',' :: X) = true := rfl

theorem sepOk_rbracket (X : List Char) : sepOk (']' :: X) = true := rfl

theorem sepOk_rbrace (X : List Char) : sepOk ('}' :: X) = true := rfl

mutual
/-- A canonically serialized well-formed value parses back to itself. -/
theorem parse_jsonStr (v : Json) : ∀ (fuel : Nat) (rest : List Char),
    jsonOkB v = true → jfuel v ≤ fuel → sepOk rest = true →
    parseValue fuel (jsonStr v ++ rest) = some (v, rest) := by
  match v with
  | .null =>
    intro fuel rest _ hfuel _
    have h1 : 1 ≤ fuel := le_trans (mutual_fuel_pos.1 _) hfuel
    obtain ⟨f, rfl⟩ : ∃ f, fuel = f + 1 := ⟨fuel - 1, by omega⟩
    simp [parseValue, jsonStr, skipWs, isWsChar]
  | .bool true =>
    intro fuel rest _ hfuel _
    have h1 : 1 ≤ fuel := le_trans (mutual_fuel_pos.1 _) hfuel
    obtain ⟨f, rfl⟩ : ∃ f, fuel = f + 1 := ⟨fuel - 1, by omega⟩
    simp [parseValue, jsonStr, skipWs, isWsChar]
  | .bool false =>
    intro fuel rest _ hfuel _
    have h1 : 1 ≤ fuel := le_trans (mutual_fuel_pos.1 _) hfuel
    obtain ⟨f, rfl⟩ : ∃ f, fuel = f + 1 := ⟨fuel - 1, by omega⟩
    simp [parseValue, jsonStr, skipWs, isWsChar]
  | .str s =>
    intro fuel rest hok hfuel _
    have h1 : 1 ≤ fuel := le_trans (mutual_fuel_pos.1 _) hfuel
    obtain ⟨f, rfl⟩ : ∃ f, fuel = f + 1 := ⟨fuel - 1, by omega⟩
    have hokS : strOkChars s.toList = true := by simpa [jsonOkB] using hok
    have hdec := decodeStr_encChars s.toList hokS rest
    simp only [jsonStr, strLit, List.cons_append, List.append_assoc,
      List.nil_append]
    simp [parseValue, skipWs, isWsChar, hdec, string_mk_toList]
    exact ⟨s.toList, hdec, rfl⟩
  | .num lex =>
    intro fuel rest hok hfuel hsep
    have h1 : 1 ≤ fuel := le_trans (mutual_fuel_pos.1 _) hfuel
    obtain ⟨f, rfl⟩ : ∃ f, fuel = f + 1 := ⟨fuel - 1, by omega⟩
    have hokN : numOk lex = true := by simpa [jsonOkB] using hok
    obtain ⟨c, cs, hlt, hc⟩ := numHead lex hokN
    obtain ⟨hw, f1, f2, f3, f4, f5, f6, f7, _, _⟩ := numHeadFacts c hc
    have hlex := lexNumber_roundtrip lex hokN rest (headNotNum_of_sepOk rest hsep)
    rw [hlt] at hlex
    have hgoal : jsonStr (.num lex) = c :: cs := by
      simpa [jsonStr] using hlt
    rw [hgoal]
    simp only [parseValue, List.cons_append, skipWs_not_ws c _ hw]
    simp only [f1, f2, f3, f4, f5, f6, f7, Bool.false_eq_true, if_false, if_true]
    rw [← List.cons_append, hlex]
    simp only [Option.map]
    rw [show String.mk (c :: cs) = lex from hlt ▸ string_mk_toList lex]
  | .arr .nil =>
    intro fuel rest _ hfuel _
    have h1 : 1 ≤ fuel := le_trans (mutual_fuel_pos.1 _) hfuel
    obtain ⟨f, rfl⟩ : ∃ f, fuel = f + 1 := ⟨fuel - 1, by omega⟩
    simp [parseValue, jsonStr, jlistStr, skipWs, isWsChar]
  | .arr (.cons x tl) =>
    intro fuel rest hok hfuel _
    have h1 : 1 ≤ fuel := le_trans (mutual_fuel_pos.1 _) hfuel
    obtain ⟨f, rfl⟩ : ∃ f, fuel = f + 1 := ⟨fuel - 1, by omega⟩
    have hokL : jlistOkB (.cons x tl) = true := by simpa [jsonOkB] using hok
    have hokx : jsonOkB x = true := by
      have := (Bool.and_eq_true _ _).mp (by simpa [jlistOkB] using hokL)
      exact this.1
    have hfl : jlfuel (.cons x tl) ≤ f := by
      have : jfuel (.arr (.cons x tl)) = 1 + jlfuel (.cons x tl) := rfl
      omega
    have hitems := parse_jlistStr (.cons x tl) f rest hokL hfl (by intro h; cases h)
    obtain ⟨c, cs, hhead, hw, hbr, _⟩ := jsonStr_head x hokx
    have hlshape : ∃ T, jlistStr (.cons x tl) = c :: T := by
      match tl with
      | .nil => exact ⟨cs, by simp [jlistStr, hhead]⟩
      | .cons y tl2 => exact ⟨cs ++ ',' :: jlistStr (.cons y tl2),
          by simp [jlistStr, hhead]⟩
    obtain ⟨T, hT⟩ := hlshape
    rw [hT] at hitems
    simp only [List.cons_append] at hitems
    simp only [jsonStr, hT, List.cons_append, List.append_assoc, List.nil_append]
    simp only [parseValue, skipWs_not_ws, hw, hbr, hitems, Option.map,
      show isWsChar '[' = false from by decide,
      show (('[' : Char) == 'n') = false from by decide,
      show (('[' : Char) == 't') = false from by decide,
      show (('[' : Char) == 'f') = false from by decide,
      show (('[' : Char) == '"') = false from by decide,
      show (('[' : Char) == '[') = true from by decide,
      Bool.false_eq_true, if_true, if_false]
  | .obj .nil =>
    intro fuel rest _ hfuel _
    have h1 : 1 ≤ fuel := le_trans (mutual_fuel_pos.1 _) hfuel
    obtain ⟨f, rfl⟩ : ∃ f, fuel = f + 1 := ⟨fuel - 1, by omega⟩
    simp [parseValue, jsonStr, jfieldsStr, skipWs, isWsChar]
  | .obj (.cons k v tl) =>
    intro fuel rest hok hfuel _
    have h1 : 1 ≤ fuel := le_trans (mutual_fuel_pos.1 _) hfuel
    obtain ⟨f, rfl⟩ : ∃ f, fuel = f + 1 := ⟨fuel - 1, by omega⟩
    have hokF : jfieldsOkB (.cons k v tl) = true := by simpa [jsonOkB] using hok
    have hff : jffuel (.cons k v tl) ≤ f := by
      have : jfuel (.obj (.cons k v tl)) = 1 + jffuel (.cons k v tl) := rfl
      omega
    have hfields := parse_jfieldsStr (.cons k v tl) f rest hokF hff
      (by intro h; cases h)
    have hfshape : ∃ T, jfieldsStr (.cons k v tl) = '"' :: T := by
      match tl with
      | .nil => exact ⟨encChars k.toList ++ '"' :: ':' :: jsonStr v,
          by simp [jfieldsStr, strLit]⟩
      | .cons k2 v2 tl2 =>
        exact ⟨(encChars k.toList ++ '"' :: ':' :: jsonStr v) ++
          ',' :: jfieldsStr (.cons k2 v2 tl2), by simp [jfieldsStr, strLit]⟩
    obtain ⟨T, hT⟩ := hfshape
    rw [hT] at hfields
    simp only [List.cons_append] at hfields
    simp only [jsonStr, hT, List.cons_append, List.append_assoc, List.nil_append]
    simp only [parseValue, skipWs_not_ws, hfields, Option.map,
      show isWsChar '{' = false from by decide,
      show isWsChar '"' = false from by decide,
      show (('{' : Char) == 'n') = false from by decide,
      show (('{' : Char) == 't') = false from by decide,
      show (('{' : Char) == 'f') = false from by decide,
      show (('{' : Char) == '"') = false from by decide,
      show (('{' : Char) == '[') = false from by decide,
      show (('{' : Char) == '{') = true from by decide,
      show (('"' : Char) == '}') = false from by decide,
      Bool.false_eq_true, if_true, if_false]

/-- A canonically serialized nonempty item list followed by `]` parses back
to itself. -/
theorem parse_jlistStr (xs : JList) : ∀ (fuel : Nat) (rest : List Char),
    jlistOkB xs = true → jlfuel xs ≤ fuel →
    xs ≠ .nil →
    parseItems fuel (jlistStr xs ++ ']' :: rest) = some (xs, rest) := by
  match xs with
  | .nil => intro fuel rest _ _ hne; exact absurd rfl hne
  | .cons x tl =>
    intro fuel rest hok hfuel _
    have hsplit := (Bool.and_eq_true _ _).mp (by simpa [jlistOkB] using hok)
    have hokx : jsonOkB x = true := hsplit.1
    have hoktl : jlistOkB tl = true := hsplit.2
    have h1 : 1 ≤ fuel := le_trans (mutual_fuel_pos.2.1 _) hfuel
    obtain ⟨f, rfl⟩ : ∃ f, fuel = f + 1 := ⟨fuel - 1, by omega⟩
    have hfx : jfuel x ≤ f := by
      have : jlfuel (.cons x tl) = 1 + jfuel x + jlfuel tl := rfl
      have := mutual_fuel_pos.2.1 tl
      omega
    match tl with
    | .nil =>
      have hval := parse_jsonStr x f (']' :: rest) hokx hfx (sepOk_rbracket rest)
      simp only [jlistStr, parseItems, hval, skipWs_not_ws,
        show isWsChar ']' = false from by decide,
        show ((']' : Char) == ',') = false from by decide,
        show ((']' : Char) == ']') = true from by decide,
        Bool.false_eq_true, if_true, if_false]
    | .cons y tl2 =>
      have hftl : jlfuel (.cons y tl2) ≤ f := by
        have : jlfuel (.cons x (.cons y tl2)) =
          1 + jfuel x + jlfuel (.cons y tl2) := rfl
        omega
      have hval := parse_jsonStr x f (',' :: (jlistStr (.cons y tl2) ++ ']' :: rest))
        hokx hfx (sepOk_comma _)
      have hrec := parse_jlistStr (.cons y tl2) f rest hoktl hftl (by intro h; cases h)
      rw [show jlistStr (.cons x (.cons y tl2)) =
        jsonStr x ++ ',' :: jlistStr (.cons y tl2) from rfl]
      simp only [List.append_assoc, List.cons_append]
      simp only [parseItems, hval, hrec, Option.map, skipWs_not_ws,
        show isWsChar ',' = false from by decide,
        show ((',' : Char) == ',') = true from by decide,
        Bool.false_eq_true, if_true, if_false]

/-- A canonically serialized nonempty member list followed by `}` parses back
to itself. -/
theorem parse_jfieldsStr (fs : JFields) : ∀ (fuel : Nat) (rest : List Char),
    jfieldsOkB fs = true → jffuel fs ≤ fuel →
    fs ≠ .nil →
    parseFields fuel (jfieldsStr fs ++ '}' :: rest) = some (fs, rest) := by
  match fs with
  | .nil => intro fuel rest _ _ hne; exact absurd rfl hne
  | .cons k v tl =>
    intro fuel rest hok hfuel _
    have hsplit : strOkChars k.toList = true ∧ jsonOkB v = true ∧
        tl.lookup k = none ∧ jfieldsOkB tl = true := by
      have h' : ((strOkChars k.toList = true ∧ jsonOkB v = true) ∧
          tl.lookup k = none) ∧ jfieldsOkB tl = true := by
        simpa [jfieldsOkB] using hok
      exact ⟨h'.1.1.1, h'.1.1.2, h'.1.2, h'.2⟩
    have hnolookup : (tl.lookup k).isNone = true := by
      rw [hsplit.2.2.1]
      rfl
    have h1 : 1 ≤ fuel := le_trans (mutual_fuel_pos.2.2 _) hfuel
    obtain ⟨f, rfl⟩ : ∃ f, fuel = f + 1 := ⟨fuel - 1, by omega⟩
    have hfv : jfuel v ≤ f := by
      have : jffuel (.cons k v tl) = 1 + jfuel v + jffuel tl := rfl
      have := mutual_fuel_pos.2.2 tl
      omega
    match tl with
    | .nil =>
      have hkey := decodeStr_encChars k.toList hsplit.1
        (':' :: (jsonStr v ++ '}' :: rest))
      have hval := parse_jsonStr v f ('}' :: rest) hsplit.2.1 hfv (sepOk_rbrace rest)
      rw [show jfieldsStr (.cons k v .nil) = strLit k ++ ':' :: jsonStr v from rfl]
      simp only [strLit, List.cons_append, List.append_assoc, List.nil_append]
      simp only [parseFields, hkey, hval, skipWs_not_ws, Option.map,
        show isWsChar ':' = false from by decide,
        show isWsChar '}' = false from by decide,
        show (('"' : Char) == '"') = true from by decide,
        show ((':' : Char) == ':') = true from by decide,
        show (('}' : Char) == ',') = false from by decide,
        show (('}' : Char) == '}') = true from by decide,
        Bool.false_eq_true, if_true, if_false, string_mk_toList]
    | .cons k2 v2 tl2 =>
      have hftl : jffuel (.cons k2 v2 tl2) ≤ f := by
        have : jffuel (.cons k v (.cons k2 v2 tl2)) =
          1 + jfuel v + jffuel (.cons k2 v2 tl2) := rfl
        omega
      have hkey := decodeStr_encChars k.toList hsplit.1
        (':' :: (jsonStr v ++ ',' :: (jfieldsStr (.cons k2 v2 tl2) ++ '}' :: rest)))
      have hval := parse_jsonStr v f
        (',' :: (jfieldsStr (.cons k2 v2 tl2) ++ '}' :: rest))
        hsplit.2.1 hfv (sepOk_comma _)
      have hrec := parse_jfieldsStr (.cons k2 v2 tl2) f rest hsplit.2.2.2 hftl
        (by intro h; cases h)
      have hqshape : ∃ T, jfieldsStr (.cons k2 v2 tl2) = '"' :: T := by
        match tl2 with
        | .nil => exact ⟨encChars k2.toList ++ '"' :: ':' :: jsonStr v2,
            by simp [jfieldsStr, strLit]⟩
        | .cons k3 v3 tl3 =>
          exact ⟨(encChars k2.toList ++ '"' :: ':' :: jsonStr v2) ++
            ',' :: jfieldsStr (.cons k3 v3 tl3), by simp [jfieldsStr, strLit]⟩
      obtain ⟨T, hT⟩ := hqshape
      rw [hT] at hrec
      simp only [List.cons_append] at hrec
      rw [show jfieldsStr (.cons k v (.cons k2 v2 tl2)) =
        (strLit k ++ ':' :: jsonStr v) ++ ',' :: jfieldsStr (.cons k2 v2 tl2)
        from rfl, hT]
      rw [hT] at hkey hval
      simp only [List.cons_append] at hkey hval
      simp only [strLit, List.cons_append, List.append_assoc, List.nil_append]
      simp only [parseFields, hkey, hval, hrec, Option.map, skipWs_not_ws,
        show isWsChar ':' = false from by decide,
        show isWsChar ',' = false from by decide,
        show isWsChar '"' = false from by decide,
        show (('"' : Char) == '"') = true from by decide,
        show ((':' : Char) == ':') = true from by decide,
        show ((',' : Char) == ',') = true from by decide,
        Bool.false_eq_true, if_true, if_false, string_mk_toList,
        dedupCons_not_mem k v (.cons k2 v2 tl2) hnolookup]
end

theorem numOk_ne_nil (lex : String) (h : numOk lex = true) : lex.toList ≠ [] := by
  intro hnil
  have hd : lex.data = [] := hnil
  simp [numOk, hd, lexNumber] at h

theorem and4_true {a b c d : Bool} (h : (a && b && c && d) = true) :
    a = true ∧ b = true ∧ c = true ∧ d = true := by
  simp [Bool.and_eq_true, and_assoc] at h
  exact ⟨h.1, h.2.1, h.2.2.1, h.2.2.2⟩

mutual
/-- Twice the serialized length bounds the fuel a well-formed value needs. -/
theorem jfuel_le (v : Json) : jsonOkB v = true → jfuel v ≤ 2 * (jsonStr v).length := by
  match v with
  | .null => intro _; decide
  | .bool b => intro _; cases b <;> decide
  | .num lex =>
    intro h
    have hne : lex.toList ≠ [] := numOk_ne_nil lex (by simpa [jsonOkB] using h)
    have h1 : 1 ≤ lex.toList.length := by
      cases hl : lex.toList with
      | nil => exact absurd hl hne
      | cons c cs => simp
    simp only [jfuel, jsonStr]
    omega
  | .str s =>
    intro _
    simp only [jfuel, jsonStr, strLit, List.length_cons, List.length_append]
    omega
  | .arr xs =>
    intro h
    have ih := jlfuel_le xs (by simpa [jsonOkB] using h)
    simp only [jfuel, jsonStr, List.length_cons, List.length_append,
      List.length_nil]
    omega
  | .obj fs =>
    intro h
    have ih := jffuel_le fs (by simpa [jsonOkB] using h)
    simp only [jfuel, jsonStr, List.length_cons, List.length_append,
      List.length_nil]
    omega

theorem jlfuel_le (xs : JList) :
    jlistOkB xs = true → jlfuel xs ≤ 2 * (jlistStr xs).length + 2 := by
  match xs with
  | .nil => intro _; decide
  | .cons x .nil =>
    intro h
    have hx : jsonOkB x = true := by
      simpa [jlistOkB, Bool.and_eq_true] using h
    have ih := jfuel_le x hx
    simp only [jlfuel, jlistStr]
    omega
  | .cons x (.cons y tl2) =>
    intro h
    obtain ⟨hx, htl⟩ : jsonOkB x = true ∧ jlistOkB (.cons y tl2) = true := by
      simpa [jlistOkB, Bool.and_eq_true, and_assoc] using h
    have ih1 := jfuel_le x hx
    have ih2 := jlfuel_le (.cons y tl2) htl
    simp only [jlfuel] at ih2
    simp only [jlfuel, jlistStr, List.length_append, List.length_cons]
    omega

theorem jffuel_le (fs : JFields) :
    jfieldsOkB fs = true → jffuel fs ≤ 2 * (jfieldsStr fs).length + 2 := by
  match fs with
  | .nil => intro _; decide
  | .cons k v .nil =>
    intro h
    have h4 := and4_true (show (strOkChars k.toList && jsonOkB v &&
      (JFields.lookup k JFields.nil).isNone && jfieldsOkB JFields.nil) = true
      from h)
    have ih := jfuel_le v h4.2.1
    simp only [jffuel, jfieldsStr, strLit, List.length_append, List.length_cons]
    omega
  | .cons k v (.cons k2 v2 tl2) =>
    intro h
    have h4 := and4_true (show (strOkChars k.toList && jsonOkB v &&
      (JFields.lookup k (JFields.cons k2 v2 tl2)).isNone &&
      jfieldsOkB (JFields.cons k2 v2 tl2)) = true from h)
    have ih1 := jfuel_le v h4.2.1
    have ih2 := jffuel_le (.cons k2 v2 tl2) h4.2.2.2
    simp only [jffuel] at ih2
    simp only [jffuel, jfieldsStr, strLit, List.length_append, List.length_cons]
    omega
end

/-- A well-formed JSON value survives a stringify/parse round trip. -/
theorem jsonParse_stringify (v : Json) (h : jsonOkB v = true) :
    jsonParse (stringify v) = some v := by
  have hb := jfuel_le v h
  have hf : jfuel v ≤ 2 * (stringify v).length + 2 := by
    have hlen : (stringify v).length = (jsonStr v).length := rfl
    omega
  have hp := parse_jsonStr v (2 * (stringify v).length + 2) [] h hf rfl
  rw [List.append_nil] at hp
  have htl : (stringify v).toList = jsonStr v := rfl
  rw [jsonParse, htl, hp]
  rfl

/-! ## C3: upsert then byDate, field for field -/

def c3Row : Row :=
  { id := "t", title := "", content := "", status := "TODO", date := "d",
    ord := 0, refs := "[]", rels := "[]", attachments := "[]",
    createdAt := "A", updatedAt := "u0" }

def c3Store : Store := { todos := [c3Row], metaUpdatedAt := "m" }

def c3Input : TodoInput :=
  { id := "t", title := none, content := none, status := none, date := some "d",
    order := none, refs := none, rels := none, attachments := none,
    createdAt := some "B", updatedAt := some "u1" }

/-- C3 counterexample: upserting a valid record whose id already exists keeps
the stored `createdAt` (the conflict UPDATE does not set it), so no record
returned by `byDate` matches the input field-for-field: every returned record
carries createdAt "A" while the input said "B". -/
theorem upsert_byDate_not_field_for_field :
    (upsertTodoRow c3Input "nA" "nB" "nM" c3Store).1 = true ∧
    ∀ v ∈ loadTodosByDate "d" (upsertTodoRow c3Input "nA" "nB" "nM" c3Store).2,
      v.createdAt ≠ c3Input.createdAt.getD "nA" := by decide

/-- C3 (amended to the fresh-id insert path): upserting a valid record whose
id is not yet in the store succeeds, and `byDate` of its date then returns a
list containing the record field-for-field — id, title, content, status, date,
order, refs (element order and duplicates included), rels, attachments and
createdAt as supplied, with updatedAt the supplied stamp or the fresh one. -/
theorem upsert_fresh_byDate_field_for_field
    (todo : TodoInput) (nowA nowB nowMeta : String) (s : Store)
    (rxs lxs axs : JList)
    (hid : todo.id ≠ "")
    (hfresh : s.todos.all (fun r => !(r.id == todo.id)) = true)
    (hrefs : todo.refs = some (.arr rxs)) (hrok : jlistOkB rxs = true)
    (hrels : todo.rels = some (.arr lxs)) (hlok : jlistOkB lxs = true)
    (hatt : todo.attachments = some (.arr axs)) (haok : jlistOkB axs = true) :
    (upsertTodoRow todo nowA nowB nowMeta s).1 = true ∧
    ({ id := todo.id, title := todo.title.getD "",
       content := todo.content.getD "", status := todo.status.getD "TODO",
       date := todo.date.getD "", order := todo.order.getD 0,
       refs := rxs.toList, rels := lxs.toList, attachments := axs.toList,
       createdAt := todo.createdAt.getD nowA,
       updatedAt := todo.updatedAt.getD nowB : TodoView } ∈
      loadTodosByDate (todo.date.getD "")
        (upsertTodoRow todo nowA nowB nowMeta s).2) := by
  have hbe : (todo.id == "") = false := by
    cases hq : todo.id == "" with
    | false => rfl
    | true => exact absurd (by simpa using hq) hid
  have hany : s.todos.any (fun r => r.id == todo.id) = false := by
    cases hq : s.todos.any (fun r => r.id == todo.id) with
    | false => rfl
    | true =>
      obtain ⟨r, hr, hbeq⟩ := List.any_eq_true.mp hq
      have := List.all_eq_true.mp hfresh r hr
      simp [hbeq] at this
  simp only [upsertTodoRow, hbe, Bool.false_eq_true, if_false, hany]
  refine ⟨trivial, ?_⟩
  set newRow := insertRowOf todo (todo.createdAt.getD nowA)
    (todo.updatedAt.getD nowB) with hnew
  have hdate : (newRow.date == todo.date.getD "") = true := by
    simp [hnew, insertRowOf]
  have hview : viewOfRow newRow =
      { id := todo.id, title := todo.title.getD "",
        content := todo.content.getD "", status := todo.status.getD "TODO",
        date := todo.date.getD "", order := todo.order.getD 0,
        refs := rxs.toList, rels := lxs.toList, attachments := axs.toList,
        createdAt := todo.createdAt.getD nowA,
        updatedAt := todo.updatedAt.getD nowB } := by
    have hr : safeJsonParseArray (toJsonArray todo.refs) = rxs.toList := by
      rw [hrefs]
      simp [toJsonArray, safeJsonParseArray,
        jsonParse_stringify (.arr rxs) (by simpa [jsonOkB] using hrok)]
    have hl : safeJsonParseArray (toJsonArray todo.rels) = lxs.toList := by
      rw [hrels]
      simp [toJsonArray, safeJsonParseArray,
        jsonParse_stringify (.arr lxs) (by simpa [jsonOkB] using hlok)]
    have ha : safeJsonParseArray (toJsonArray todo.attachments) = axs.toList := by
      rw [hatt]
      simp [toJsonArray, safeJsonParseArray,
        jsonParse_stringify (.arr axs) (by simpa [jsonOkB] using haok)]
    simp [hnew, viewOfRow, insertRowOf, hr, hl, ha]
  rw [← hview]
  simp only [loadTodosByDate]
  refine List.mem_map_of_mem viewOfRow ?_
  refine (sortLe_perm byDateLe _).mem_iff.mpr ?_
  rw [List.filter_append]
  refine List.mem_append_right _ ?_
  simp [List.filter, hdate]

def c3FreshInput : TodoInput :=
  { id := "t9", title := some "T", content := some "c", status := some "DONE",
    date := some "d", order := some 3,
    refs := some (.arr (.cons (.str "a") (.cons (.str "a") .nil))),
    rels := some (.arr (.cons (.obj (.cons "toId" (.str "a")
      (.cons "type" (.str "blocks") .nil))) .nil)),
    attachments := some (.arr .nil),
    createdAt := some "C", updatedAt := none }

theorem upsert_fresh_byDate_field_for_field_witness :
    c3FreshInput.id ≠ "" ∧
    ({ id := "t9", title := "T", content := "c", status := "DONE", date := "d",
       order := 3, refs := [.str "a", .str "a"],
       rels := [.obj (.cons "toId" (.str "a")
         (.cons "type" (.str "blocks") .nil))],
       attachments := [], createdAt := "C", updatedAt := "nB" : TodoView } ∈
      loadTodosByDate "d"
        (upsertTodoRow c3FreshInput "nA" "nB" "nM" c3Store).2) :=
  ⟨by decide,
    (upsert_fresh_byDate_field_for_field c3FreshInput "nA" "nB" "nM" c3Store
      (.cons (.str "a") (.cons (.str "a") .nil))
      (.cons (.obj (.cons "toId" (.str "a")
        (.cons "type" (.str "blocks") .nil))) .nil)
      .nil (by decide) (by decide) rfl (by decide) rfl (by decide) rfl
      (by decide)).2⟩

/-! ## C1: cascade delete leaves no dangling references -/

/-- Ids whose serialized form inside a JSON string literal is the id itself
and whose LIKE pattern has no wildcard: printable characters, no quote, no
backslash, no `%`, no `_`.  `crypto.randomUUID()` ids are of this shape. -/
def cleanId (id : String) : Bool :=
  id.toList.all (fun c =>
    32 ≤ c.toNat && !(c == '"') && !(c == '\\') && !(c == '%') && !(c == '_'))

/-- A TEXT column value that is the canonical `JSON.stringify` of a
well-formed array, as `toJsonArray` always produces. -/
def canonicalArrayText (t : String) : Bool :=
  match jsonParse t with
  | some (.arr xs) => jlistOkB xs && (stringify (.arr xs) == t)
  | _ => false

def canonicalRow (r : Row) : Bool :=
  canonicalArrayText r.refs && canonicalArrayText r.rels

/-- Apply a list of functions in order. -/
def chainFns {α : Type} (fs : List (α → α)) (x : α) : α :=
  fs.foldl (fun a f => f a) x

theorem chainFns_cons {α : Type} (f : α → α) (fs : List (α → α)) (x : α) :
    chainFns (f :: fs) x = chainFns fs (f x) := rfl

theorem chainFns_fix {α : Type} (fs : List (α → α)) (x : α)
    (h : ∀ f ∈ fs, f x = x) : chainFns fs x = x := by
  induction fs with
  | nil => rfl
  | cons f fs ih =>
    rw [chainFns_cons, h f (List.mem_cons_self f fs)]
    exact ih (fun g hg => h g (List.mem_cons_of_mem f hg))

theorem foldMap_eq_map {α : Type} (fs : List (α → α)) (l : List α) :
    fs.foldl (fun l f => l.map f) l = l.map (fun x => chainFns fs x) := by
  induction fs generalizing l with
  | nil => simp [chainFns]
  | cons f fs ih =>
    rw [List.foldl_cons, ih, List.map_map]
    rfl

theorem canonicalArrayText_spec (t : String) (h : canonicalArrayText t = true) :
    ∃ xs : JList, jlistOkB xs = true ∧ stringify (.arr xs) = t ∧
      safeJsonParseArray t = xs.toList := by
  unfold canonicalArrayText at h
  split at h
  case h_1 xs heq =>
    refine ⟨xs, ?_, ?_, ?_⟩
    · exact (and4_true (show (jlistOkB xs && (stringify (.arr xs) == t) &&
        true && true) = true by simp [h])).1
    · have := (and4_true (show (jlistOkB xs && (stringify (.arr xs) == t) &&
        true && true) = true by simp [h])).2.1
      simpa using this
    · simp [safeJsonParseArray, heq]
  case h_2 => exact absurd h (by simp)

theorem jlistOkB_all (xs : JList) : jlistOkB xs = xs.toList.all jsonOkB := by
  match xs with
  | .nil => rfl
  | .cons x tl => simp [jlistOkB, JList.toList, jlistOkB_all tl]

theorem parse_canonical_filter (xs : JList) (p : Json → Bool)
    (hok : jlistOkB xs = true) :
    safeJsonParseArray (stringify (.arr (JList.ofList (xs.toList.filter p)))) =
      xs.toList.filter p := by
  have hsub : (xs.toList.filter p).all jsonOkB = true := by
    rw [List.all_eq_true]
    intro a ha
    have := List.all_eq_true.mp ((jlistOkB_all xs) ▸ hok) a
      (List.mem_of_mem_filter ha)
    exact this
  have hok2 : jsonOkB (.arr (JList.ofList (xs.toList.filter p))) = true := by
    show jlistOkB (JList.ofList (xs.toList.filter p)) = true
    rw [jlistOkB_all, JList.toList_ofList]
    exact hsub
  simp [safeJsonParseArray, jsonParse_stringify _ hok2, JList.toList_ofList]

theorem band_true {a b : Bool} (h : (a && b) = true) : a = true ∧ b = true := by
  simp only [Bool.and_eq_true] at h
  exact h

theorem likeM_mono : ∀ (f1 : Nat) (p t : List Char) (f2 : Nat), f1 ≤ f2 →
    likeM f1 p t = true → likeM f2 p t = true := by
  intro f1
  induction f1 with
  | zero =>
    intro p t f2 _ h
    exact absurd h (by simp [likeM])
  | succ f ih =>
    intro p t f2 hle h
    obtain ⟨g, rfl⟩ : ∃ g, f2 = g + 1 := ⟨f2 - 1, by omega⟩
    have hfg : f ≤ g := by omega
    match p with
    | [] =>
      simp only [likeM] at h ⊢
      exact h
    | pc :: p' =>
      simp only [likeM] at h ⊢
      by_cases hpc : (pc == '%') = true
      · rw [if_pos hpc] at h ⊢
        simp only [Bool.or_eq_true] at h ⊢
        rcases h with h | h
        · exact Or.inl (ih p' t g hfg h)
        · match t with
          | [] => simp at h
          | tc :: t' =>
            have h' : likeM f (pc :: p') t' = true := h
            exact Or.inr (ih (pc :: p') t' g hfg h')
      · rw [if_neg hpc] at h ⊢
        by_cases hus : (pc == '_') = true
        · rw [if_pos hus] at h ⊢
          match t with
          | [] => simp at h
          | tc :: t' =>
            have h' : likeM f p' t' = true := h
            exact ih p' t' g hfg h'
        · rw [if_neg hus] at h ⊢
          match t with
          | [] => simp at h
          | tc :: t' =>
            have h' : (foldCase pc == foldCase tc && likeM f p' t') = true := h
            have hparts := band_true h'
            show (foldCase pc == foldCase tc && likeM g p' t') = true
            rw [hparts.1, ih p' t' g hfg hparts.2]
            rfl

theorem likeM_pct_all : ∀ (t : List Char) (fuel : Nat), t.length + 2 ≤ fuel →
    likeM fuel ['%'] t = true := by
  intro t
  induction t with
  | nil =>
    intro fuel h
    obtain ⟨g, rfl⟩ : ∃ g, fuel = g + 2 := ⟨fuel - 2, by omega⟩
    simp [likeM]
  | cons c t' ih =>
    intro fuel h
    obtain ⟨g, rfl⟩ : ∃ g, fuel = g + 1 := ⟨fuel - 1, by omega⟩
    have hlen : t'.length + 2 ≤ g := by
      simp only [List.length_cons] at h
      omega
    simp [likeM, ih g hlen]

theorem likeM_lit : ∀ (q suf : List Char) (fuel : Nat),
    q.all (fun c => !(c == '%') && !(c == '_')) = true →
    q.length + suf.length + 2 ≤ fuel →
    likeM fuel (q ++ ['%']) (q ++ suf) = true := by
  intro q
  induction q with
  | nil =>
    intro suf fuel _ h
    exact likeM_pct_all suf fuel (by simpa using h)
  | cons c q' ih =>
    intro suf fuel hq hlen
    obtain ⟨g, rfl⟩ : ∃ g, fuel = g + 1 := ⟨fuel - 1, by omega⟩
    have hc0 := List.all_eq_true.mp hq c (List.mem_cons_self c q')
    have hc : (c == '%') = false ∧ (c == '_') = false := by
      have := band_true hc0
      exact ⟨Bool.not_eq_true' .. ▸ this.1, Bool.not_eq_true' .. ▸ this.2⟩
    have hq' : q'.all (fun c => !(c == '%') && !(c == '_')) = true := by
      rw [List.all_eq_true]
      exact fun a ha => List.all_eq_true.mp hq a (List.mem_cons_of_mem c ha)
    have hlen' : q'.length + suf.length + 2 ≤ g := by
      simp only [List.length_cons] at hlen
      omega
    simp only [List.cons_append, likeM, hc.1, hc.2, Bool.false_eq_true,
      if_false]
    rw [beq_self_eq_true (foldCase c), ih suf g hq' hlen']
    rfl

theorem likeM_skip : ∀ (pre p' t : List Char) (f : Nat),
    likeM f p' t = true →
    likeM (f + pre.length + 1) ('%' :: p') (pre ++ t) = true := by
  intro pre
  induction pre with
  | nil =>
    intro p' t f h
    show likeM (f + 1) ('%' :: p') t = true
    simp [likeM, h]
  | cons c pre' ih =>
    intro p' t f h
    have hih := ih p' t f h
    show likeM ((f + pre'.length + 1) + 1) ('%' :: p') (c :: (pre' ++ t)) = true
    have hunf : likeM ((f + pre'.length + 1) + 1) ('%' :: p') (c :: (pre' ++ t)) =
        (likeM (f + pre'.length + 1) p' (c :: (pre' ++ t)) ||
          likeM (f + pre'.length + 1) ('%' :: p') (pre' ++ t)) := rfl
    rw [hunf, hih, Bool.or_true]

theorem sqlLike_of_infix (idq text : String) (hclean : cleanId idq = true)
    (pre suf : List Char)
    (heq : text.data = (pre ++ ('"' :: idq.data ++ ['"'])) ++ suf) :
    sqlLike (likePattern idq) text = true := by
  have hq : ('"' :: idq.data ++ ['"']).all
      (fun c => !(c == '%') && !(c == '_')) = true := by
    rw [List.all_eq_true]
    intro c hc
    rcases List.mem_cons.mp hc with hc1 | hc2
    · subst hc1; decide
    · rcases List.mem_append.mp hc2 with hc3 | hc4
      · have hcl := List.all_eq_true.mp hclean c hc3
        have p1 := band_true hcl
        have p2 := band_true p1.1
        rw [Bool.and_eq_true]
        exact ⟨p2.2, p1.2⟩
      · have : c = '"' := by simpa using hc4
        subst this; decide
  have hlit := likeM_lit ('"' :: idq.data ++ ['"']) suf
    (('"' :: idq.data ++ ['"']).length + suf.length + 2) hq (le_refl _)
  have hskip := likeM_skip pre (('"' :: idq.data ++ ['"']) ++ ['%'])
    (('"' :: idq.data ++ ['"']) ++ suf)
    (('"' :: idq.data ++ ['"']).length + suf.length + 2) hlit
  have hPd : (likePattern idq).data =
      '%' :: ((('"' :: idq.data ++ ['"']) ++ ['%'])) := by
    have h1 : ("%\"" : String).data = ['%', '"'] := rfl
    have h2 : ("\"%" : String).data = ['"', '%'] := rfl
    show (("%\"" ++ idq ++ "\"%" : String)).data = _
    rw [String.data_append, String.data_append, h1, h2]
    simp
  have hPlen : (likePattern idq).length =
      ('"' :: idq.data ++ ['"']).length + 2 := by
    show (likePattern idq).data.length = _
    rw [hPd]
    simp only [List.length_cons, List.length_append, List.length_nil]
  have hTlen : text.length =
      pre.length + ('"' :: idq.data ++ ['"']).length + suf.length := by
    show text.data.length = _
    rw [heq]
    simp only [List.length_cons, List.length_append, List.length_nil]
  have hfuel : (('"' :: idq.data ++ ['"']).length + suf.length + 2) +
      pre.length + 1 ≤ (likePattern idq).length + text.length + 1 := by
    rw [hPlen, hTlen]
    omega
  have hbig := likeM_mono _ _ _ _ hfuel hskip
  rw [sqlLike]
  have hPl : (likePattern idq).toList =
      '%' :: ((('"' :: idq.data ++ ['"']) ++ ['%'])) := hPd
  have hTl : text.toList = pre ++ (('"' :: idq.data ++ ['"']) ++ suf) := by
    show text.data = _
    rw [heq]
    simp
  rw [hPl, hTl]
  exact hbig

theorem encChar_clean (c : Char) (h32 : 32 ≤ c.toNat)
    (hq : (c == '"') = false) (hbs : (c == '\\') = false) : encChar c = [c] := by
  have h8 : (c == '\x08') = false := beq_char_false_of_toNat_lt h32 (by decide)
  have h9 : (c == '\x09') = false := beq_char_false_of_toNat_lt h32 (by decide)
  have ha : (c == '\x0a') = false := beq_char_false_of_toNat_lt h32 (by decide)
  have hc12 : (c == '\x0c') = false := beq_char_false_of_toNat_lt h32 (by decide)
  have hd13 : (c == '\x0d') = false := beq_char_false_of_toNat_lt h32 (by decide)
  have hlt : ¬ (c.toNat < 32) := by omega
  simp [encChar, hq, hbs, h8, h9, ha, hc12, hd13, hlt]

theorem encChars_clean (l : List Char)
    (h : l.all (fun c => 32 ≤ c.toNat && !(c == '"') && !(c == '\\') &&
      !(c == '%') && !(c == '_')) = true) :
    encChars l = l := by
  induction l with
  | nil => rfl
  | cons c cs ih =>
    have hc := List.all_eq_true.mp h c (List.mem_cons_self c cs)
    have p1 := band_true hc
    have p2 := band_true p1.1
    have p3 := band_true p2.1
    have p4 := band_true p3.1
    have h32 : 32 ≤ c.toNat := by simpa using p4.1
    have hq : (c == '"') = false := Bool.not_eq_true' .. ▸ p4.2
    have hbs : (c == '\\') = false := Bool.not_eq_true' .. ▸ p3.2
    have htail : cs.all (fun c => 32 ≤ c.toNat && !(c == '"') && !(c == '\\') &&
        !(c == '%') && !(c == '_')) = true := by
      rw [List.all_eq_true]
      exact fun a ha => List.all_eq_true.mp h a (List.mem_cons_of_mem c ha)
    rw [encChars, encChar_clean c h32 hq hbs, ih htail]
    rfl

theorem strLit_clean (idq : String) (h : cleanId idq = true) :
    strLit idq = '"' :: idq.data ++ ['"'] := by
  rw [strLit, encChars_clean idq.toList h]
  rfl

theorem jlistStr_elem_infix : ∀ (xs : JList) (x : Json), x ∈ xs.toList →
    ∃ pre suf, jlistStr xs = pre ++ jsonStr x ++ suf := by
  intro xs
  match xs with
  | .nil => intro x hx; simp [JList.toList] at hx
  | .cons x0 .nil =>
    intro x hx
    have hx0 : x = x0 := by simpa [JList.toList] using hx
    subst hx0
    exact ⟨[], [], by simp [jlistStr]⟩
  | .cons x0 (.cons y tl) =>
    intro x hx
    have hx' : x = x0 ∨ x ∈ (JList.cons y tl).toList := by
      simpa [JList.toList] using hx
    rcases hx' with h1 | h2
    · subst h1
      exact ⟨[], ',' :: jlistStr (.cons y tl), by simp [jlistStr]⟩
    · obtain ⟨pre, suf, heq⟩ := jlistStr_elem_infix (.cons y tl) x h2
      exact ⟨jsonStr x0 ++ ',' :: pre, suf, by simp [jlistStr, heq]⟩

theorem arr_elem_infix (xs : JList) (x : Json) (hx : x ∈ xs.toList) :
    ∃ pre suf, jsonStr (.arr xs) = pre ++ jsonStr x ++ suf := by
  obtain ⟨pre, suf, heq⟩ := jlistStr_elem_infix xs x hx
  exact ⟨'[' :: pre, suf ++ [']'], by simp [jsonStr, heq]⟩

theorem jfieldsStr_toId_infix : ∀ (fs : JFields) (v : Json),
    JFields.lookup "toId" fs = some v →
    ∃ pre suf, jfieldsStr fs = pre ++ jsonStr v ++ suf := by
  intro fs
  match fs with
  | .nil => intro v hv; simp [JFields.lookup] at hv
  | .cons k v0 .nil =>
    intro v hv
    by_cases hk : (k == "toId") = true
    · have hv0 : v0 = v := by simpa [JFields.lookup, hk] using hv
      subst hv0
      exact ⟨strLit k ++ [':'], [], by simp [jfieldsStr]⟩
    · simp [JFields.lookup, hk] at hv
  | .cons k v0 (.cons k2 v2 tl) =>
    intro v hv
    by_cases hk : (k == "toId") = true
    · have hv0 : v0 = v := by simpa [JFields.lookup, hk] using hv
      subst hv0
      exact ⟨strLit k ++ [':'], ',' :: jfieldsStr (.cons k2 v2 tl),
        by simp [jfieldsStr]⟩
    · have hv' : JFields.lookup "toId" (.cons k2 v2 tl) = some v := by
        simpa [JFields.lookup, hk] using hv
      obtain ⟨pre, suf, heq⟩ := jfieldsStr_toId_infix (.cons k2 v2 tl) v hv'
      exact ⟨(strLit k ++ ':' :: jsonStr v0) ++ ',' :: pre, suf,
        by simp [jfieldsStr, heq]⟩

theorem getToId_infix (j : Json) (idq : String)
    (h : j.getToId = some (Json.str idq)) :
    ∃ pre suf, jsonStr j = pre ++ strLit idq ++ suf := by
  match j with
  | .obj fs =>
    have h' : JFields.lookup "toId" fs = some (.str idq) := by
      simpa [Json.getToId] using h
    obtain ⟨pre, suf, heq⟩ := jfieldsStr_toId_infix fs _ h'
    refine ⟨'{' :: pre, suf ++ ['}'], ?_⟩
    have hs : jsonStr (Json.str idq) = strLit idq := rfl
    rw [hs] at heq
    simp [jsonStr, heq]
  | .null => simp [Json.getToId] at h
  | .bool b => simp [Json.getToId] at h
  | .num lex => simp [Json.getToId] at h
  | .str s => simp [Json.getToId] at h
  | .arr xs => simp [Json.getToId] at h

theorem rowLikeHit_of_ref (idq : String) (r : Row) (xs : JList)
    (hclean : cleanId idq = true)
    (hrefs : stringify (.arr xs) = r.refs)
    (hmem : Json.str idq ∈ xs.toList) :
    rowLikeHit idq r = true := by
  obtain ⟨pre, suf, heq⟩ := arr_elem_infix xs _ hmem
  have hs : jsonStr (Json.str idq) = '"' :: idq.data ++ ['"'] := by
    rw [show jsonStr (Json.str idq) = strLit idq from rfl, strLit_clean idq hclean]
  have hdata : r.refs.data = (pre ++ ('"' :: idq.data ++ ['"'])) ++ suf := by
    rw [← hrefs]
    show jsonStr (.arr xs) = _
    rw [heq, hs]
  have hlike := sqlLike_of_infix idq r.refs hclean pre suf hdata
  simp [rowLikeHit, hlike]

theorem rowLikeHit_of_rel (idq : String) (r : Row) (xs : JList)
    (hclean : cleanId idq = true)
    (hrels : stringify (.arr xs) = r.rels)
    (j : Json) (hmem : j ∈ xs.toList)
    (htoid : j.getToId = some (Json.str idq)) :
    rowLikeHit idq r = true := by
  obtain ⟨p1, s1, h1⟩ := arr_elem_infix xs j hmem
  obtain ⟨p2, s2, h2⟩ := getToId_infix j idq htoid
  have hdata : r.rels.data = ((p1 ++ p2) ++ ('"' :: idq.data ++ ['"'])) ++
      (s2 ++ s1) := by
    rw [← hrels]
    show jsonStr (.arr xs) = _
    rw [h1, h2, strLit_clean idq hclean]
    simp [List.append_assoc]
  have hlike := sqlLike_of_infix idq r.rels hclean (p1 ++ p2) (s2 ++ s1) hdata
  simp [rowLikeHit, hlike]

theorem rowCascade_none_texts (id now : String) (row : Row)
    (h : rowCascade id now row = none) :
    stringify (.arr (JList.ofList
      ((safeJsonParseArray row.refs).filter (refKeep id)))) = row.refs ∧
    stringify (.arr (JList.ofList
      ((safeJsonParseArray row.rels).filter (relKeep id)))) = row.rels := by
  simp only [rowCascade] at h
  split at h
  case isTrue hcond =>
    have hp := band_true hcond
    exact ⟨eq_of_beq hp.1, eq_of_beq hp.2⟩
  case isFalse hcond => exact absurd h (by simp)

theorem rowCascade_some_apply (id now : String) (row : Row) (f : Row → Row)
    (h : rowCascade id now row = some f) :
    (∀ x, (x.id == row.id) = false → f x = x) ∧
    f row = { row with
      refs := stringify (.arr (JList.ofList
        ((safeJsonParseArray row.refs).filter (refKeep id)))),
      rels := stringify (.arr (JList.ofList
        ((safeJsonParseArray row.rels).filter (relKeep id)))),
      updatedAt := now } ∧
    (∀ x, (f x).id = x.id) := by
  simp only [rowCascade] at h
  split at h
  case isTrue hcond => exact absurd h (by simp)
  case isFalse hcond =>
    have hf := Option.some.inj h
    refine ⟨?_, ?_, ?_⟩
    · intro x hx
      rw [← hf]
      simp [hx]
    · rw [← hf]
      simp
    · intro x
      rw [← hf]
      by_cases hx : (x.id == row.id) = true
      · simp [hx]
      · simp [hx]

theorem cascadeStep_mem (id now : String) (cands : List Row) (f : Row → Row)
    (h : f ∈ cands.filterMap
      (fun row => if row.id == id then none else rowCascade id now row)) :
    ∃ row ∈ cands, (row.id == id) = false ∧ rowCascade id now row = some f := by
  obtain ⟨row, hrow, hsome⟩ := List.mem_filterMap.mp h
  by_cases hid : (row.id == id) = true
  · rw [if_pos hid] at hsome
    exact absurd hsome (by simp)
  · rw [if_neg hid] at hsome
    exact ⟨row, hrow, by simpa using hid, hsome⟩

theorem deleteCascades_mem (id now : String) (s : Store) (f : Row → Row)
    (h : f ∈ deleteCascades id now s) :
    ∃ row ∈ s.todos, rowLikeHit id row = true ∧ (row.id == id) = false ∧
      rowCascade id now row = some f := by
  obtain ⟨row, hrow, hne, hsome⟩ := cascadeStep_mem id now _ f h
  have hmem := List.mem_filter.mp hrow
  exact ⟨row, hmem.1, hmem.2, hne, hsome⟩

theorem chainFns_cascades_fix (id now : String) (s : Store) (r : Row)
    (huniq : ∀ row ∈ s.todos, row.id = r.id → row = r)
    (hside : rowCascade id now r = none ∨ rowLikeHit id r = false) :
    chainFns (deleteCascades id now s) r = r := by
  apply chainFns_fix
  intro f hf
  obtain ⟨row, hrow, hhit, hne, hsome⟩ := deleteCascades_mem id now s f hf
  have hneid : (r.id == row.id) = false := by
    cases hq : r.id == row.id with
    | false => rfl
    | true =>
      have hrr : row = r := huniq row hrow (eq_of_beq hq).symm
      subst hrr
      rcases hside with h1 | h2
      · rw [h1] at hsome
        exact absurd hsome (by simp)
      · rw [h2] at hhit
        exact absurd hhit (by simp)
  exact (rowCascade_some_apply id now row f hsome).1 r hneid

theorem chainFns_cascades_hit (id now : String) :
    ∀ (cands : List Row) (r : Row) (fc : Row → Row),
    cands.Nodup →
    (∀ row ∈ cands, row.id = r.id → row = r) →
    r ∈ cands →
    rowCascade id now r = some fc →
    (r.id == id) = false →
    chainFns (cands.filterMap
      (fun row => if row.id == id then none else rowCascade id now row)) r =
      fc r := by
  intro cands
  induction cands with
  | nil => intro r fc _ _ hmem _ _; simp at hmem
  | cons row rest ih =>
    intro r fc hnd huniq hmem hfc hry
    by_cases hrr : row = r
    · subst hrr
      have hstep : (if row.id == id then none else rowCascade id now row) =
          some fc := by
        rw [if_neg (by simp [hry])]
        exact hfc
      rw [List.filterMap_cons]
      rw [hstep]
      rw [chainFns_cons]
      apply chainFns_fix
      intro f hf
      obtain ⟨row', hrow', hne', hsome'⟩ := cascadeStep_mem id now rest f hf
      have hid1 : (fc row).id = row.id := by
        rw [(rowCascade_some_apply id now row fc hfc).2.1]
      have hneid : ((fc row).id == row'.id) = false := by
        rw [hid1]
        cases hq : row.id == row'.id with
        | false => rfl
        | true =>
          have : row' = row :=
            huniq row' (List.mem_cons_of_mem row hrow') (eq_of_beq hq).symm
          subst this
          exact absurd hrow' ((List.nodup_cons.mp hnd).1)
      exact (rowCascade_some_apply id now row' f hsome').1 (fc row) hneid
    · have hmem' : r ∈ rest := by
        rcases List.mem_cons.mp hmem with h1 | h2
        · exact absurd h1.symm hrr
        · exact h2
      have ihres := ih r fc (List.nodup_cons.mp hnd).2
        (fun row' h' => huniq row' (List.mem_cons_of_mem row h')) hmem' hfc hry
      rw [List.filterMap_cons]
      cases hstep : (if row.id == id then none else rowCascade id now row) with
      | none => exact ihres
      | some f =>
        rw [chainFns_cons]
        have hneid : (r.id == row.id) = false := by
          cases hq : r.id == row.id with
          | false => rfl
          | true =>
            exact absurd (huniq row (List.mem_cons_self row rest)
              (eq_of_beq hq).symm) hrr
        have hsome : rowCascade id now row = some f := by
          by_cases hq : (row.id == id) = true
          · rw [if_pos hq] at hstep
            exact absurd hstep (by simp)
          · rw [if_neg hq] at hstep
            exact hstep
        rw [(rowCascade_some_apply id now row f hsome).1 r hneid]
        exact ihres

theorem foldl_mapSteps (fs : List (Row → Row)) (st : Store) :
    (fs.map (fun f => fun st : Store =>
      { st with todos := st.todos.map f })).foldl (fun st f => f st) st =
    { st with todos := st.todos.map (chainFns fs) } := by
  induction fs generalizing st with
  | nil =>
    simp only [List.map_nil, List.foldl_nil]
    rw [listMapSelf (chainFns []) st.todos (fun a _ => rfl)]
  | cons f fs ih =>
    simp only [List.map_cons, List.foldl_cons]
    rw [ih]
    simp only [List.map_map]
    rfl

theorem deleteTodoRow_state (id now : String) (s : Store)
    (hid : (id == "") = false) :
    deleteTodoRow id now s = (true,
      { todos := (s.todos.filter (fun r => !(r.id == id))).map
          (fun r => chainFns (deleteCascades id now s) r),
        metaUpdatedAt := now }) := by
  rw [deleteTodoRow, if_neg (by simp [hid])]
  simp only [deleteSteps, List.foldl_cons, List.foldl_append, List.foldl_nil,
    foldl_mapSteps]

theorem byDate_mem_inv (d : String) (st : Store) (v : TodoView)
    (hv : v ∈ loadTodosByDate d st) : ∃ r ∈ st.todos, v = viewOfRow r := by
  simp only [loadTodosByDate] at hv
  obtain ⟨r, hr, hvr⟩ := List.mem_map.mp hv
  have hmem := (sortLe_perm byDateLe _).mem_iff.mp hr
  exact ⟨r, List.mem_of_mem_filter hmem, hvr.symm⟩

theorem JList.ofList_toList : ∀ xs : JList, JList.ofList xs.toList = xs := by
  intro xs
  match xs with
  | .nil => rfl
  | .cons x tl =>
    show JList.cons x (JList.ofList tl.toList) = JList.cons x tl
    rw [JList.ofList_toList tl]

theorem rowCascade_some_cond (id now : String) (row : Row) (f : Row → Row)
    (h : rowCascade id now row = some f) :
    (stringify (.arr (JList.ofList
        ((safeJsonParseArray row.refs).filter (refKeep id)))) == row.refs &&
      stringify (.arr (JList.ofList
        ((safeJsonParseArray row.rels).filter (relKeep id)))) == row.rels) =
      false := by
  cases hq : (stringify (.arr (JList.ofList
      ((safeJsonParseArray row.refs).filter (refKeep id)))) == row.refs &&
    stringify (.arr (JList.ofList
      ((safeJsonParseArray row.rels).filter (relKeep id)))) == row.rels) with
  | false => rfl
  | true =>
    simp only [rowCascade] at h
    rw [if_pos hq] at h
    exact absurd h (by simp)

theorem chain_row_clean (id now : String) (s : Store) (r : Row)
    (hclean : cleanId id = true)
    (hnd : (s.todos.map Row.id).Nodup)
    (hr : r ∈ s.todos)
    (hry : (r.id == id) = false)
    (hcanon : canonicalRow r = true) :
    (chainFns (deleteCascades id now s) r).id = r.id ∧
    Json.str id ∉ safeJsonParseArray (chainFns (deleteCascades id now s) r).refs ∧
    ∀ j ∈ safeJsonParseArray (chainFns (deleteCascades id now s) r).rels,
      j.getToId ≠ some (Json.str id) := by
  have huniq : ∀ row ∈ s.todos, row.id = r.id → row = r :=
    fun row hrow heq => List.inj_on_of_nodup_map hnd hrow hr heq
  have hcparts := band_true hcanon
  obtain ⟨xs, hxok, hxstr, hxparse⟩ := canonicalArrayText_spec r.refs hcparts.1
  obtain ⟨ys, hyok, hystr, hyparse⟩ := canonicalArrayText_spec r.rels hcparts.2
  cases hc : rowCascade id now r with
  | none =>
    rw [chainFns_cascades_fix id now s r huniq (Or.inl hc)]
    obtain ⟨hrt, hlt⟩ := rowCascade_none_texts id now r hc
    rw [hxparse] at hrt
    rw [hyparse] at hlt
    have h1 := parse_canonical_filter xs (refKeep id) hxok
    rw [hrt, hxparse] at h1
    have h2 := parse_canonical_filter ys (relKeep id) hyok
    rw [hlt, hyparse] at h2
    refine ⟨rfl, ?_, ?_⟩
    · rw [hxparse]
      intro hmem
      have hk := List.filter_eq_self.mp h1.symm (Json.str id) hmem
      simp [refKeep] at hk
    · rw [hyparse]
      intro j hj heq
      have hk := List.filter_eq_self.mp h2.symm j hj
      simp [relKeep, heq] at hk
  | some fc =>
    by_cases hhit : rowLikeHit id r = true
    · have hcands_nd : (s.todos.filter (rowLikeHit id)).Nodup :=
        (List.Nodup.of_map _ hnd).filter _
      have hmemc : r ∈ s.todos.filter (rowLikeHit id) :=
        List.mem_filter.mpr ⟨hr, hhit⟩
      have hchain := chainFns_cascades_hit id now
        (s.todos.filter (rowLikeHit id)) r fc hcands_nd
        (fun row h' heq => huniq row (List.mem_of_mem_filter h') heq)
        hmemc hc hry
      rw [deleteCascades, hchain, (rowCascade_some_apply id now r fc hc).2.1]
      refine ⟨rfl, ?_, ?_⟩
      · show Json.str id ∉ safeJsonParseArray (stringify (.arr (JList.ofList
          ((safeJsonParseArray r.refs).filter (refKeep id)))))
        rw [hxparse, parse_canonical_filter xs (refKeep id) hxok]
        intro hmem
        have hk := (List.mem_filter.mp hmem).2
        simp [refKeep] at hk
      · show ∀ j ∈ safeJsonParseArray (stringify (.arr (JList.ofList
          ((safeJsonParseArray r.rels).filter (relKeep id))))),
          j.getToId ≠ some (Json.str id)
        rw [hyparse, parse_canonical_filter ys (relKeep id) hyok]
        intro j hj heq
        have hk := (List.mem_filter.mp hj).2
        simp [relKeep, heq] at hk
    · exfalso
      have hcond := rowCascade_some_cond id now r fc hc
      have hor : (stringify (.arr (JList.ofList
          ((safeJsonParseArray r.refs).filter (refKeep id)))) == r.refs) =
            false ∨
          (stringify (.arr (JList.ofList
            ((safeJsonParseArray r.rels).filter (relKeep id)))) == r.rels) =
            false := by
        cases ha : (stringify (.arr (JList.ofList
            ((safeJsonParseArray r.refs).filter (refKeep id)))) == r.refs) with
        | false => exact Or.inl rfl
        | true =>
          cases hb : (stringify (.arr (JList.ofList
              ((safeJsonParseArray r.rels).filter (relKeep id)))) == r.rels) with
          | false => exact Or.inr rfl
          | true => rw [ha, hb] at hcond; exact absurd hcond (by simp)
      rcases hor with hne | hne
      · rw [hxparse] at hne
        obtain ⟨a, ha, hpa⟩ : ∃ a ∈ xs.toList, ¬ (refKeep id a = true) := by
          by_contra hno
          push_neg at hno
          have hfe : xs.toList.filter (refKeep id) = xs.toList :=
            List.filter_eq_self.mpr hno
          rw [hfe, JList.ofList_toList, hxstr] at hne
          simp at hne
        have hastr : a = Json.str id := by
          have : (a == Json.str id) = true := by
            cases hq : a == Json.str id with
            | true => rfl
            | false => exact absurd (by simp [refKeep, hq]) hpa
          exact eq_of_beq this
        subst hastr
        exact absurd (rowLikeHit_of_ref id r xs hclean hxstr ha) hhit
      · rw [hyparse] at hne
        obtain ⟨a, ha, hpa⟩ : ∃ a ∈ ys.toList, ¬ (relKeep id a = true) := by
          by_contra hno
          push_neg at hno
          have hfe : ys.toList.filter (relKeep id) = ys.toList :=
            List.filter_eq_self.mpr hno
          rw [hfe, JList.ofList_toList, hystr] at hne
          simp at hne
        have hatid : a.getToId = some (Json.str id) := by
          have : (a.getToId == some (Json.str id)) = true := by
            cases hq : a.getToId == some (Json.str id) with
            | true => rfl
            | false => exact absurd (by simp [relKeep, hq]) hpa
          exact eq_of_beq this
        exact absurd (rowLikeHit_of_rel id r ys hclean hystr a ha hatid) hhit

def c1X : Row :=
  { id := "a\"b", title := "", content := "", status := "TODO", date := "d",
    ord := 0, refs := "[]", rels := "[]", attachments := "[]",
    createdAt := "c0", updatedAt := "u0" }

def c1A : Row :=
  { id := "a", title := "", content := "", status := "TODO", date := "d",
    ord := 1, refs := "[\"a\\\"b\"]", rels := "[]", attachments := "[]",
    createdAt := "c1", updatedAt := "u1" }

def c1Store : Store := { todos := [c1X, c1A], metaUpdatedAt := "m" }

/-- C1 counterexample: deleting the record with id `a"b` succeeds, yet the
remaining record `a` — whose `refs` column holds the canonical serialization
`["a\"b"]` of a reference to the deleted record — still shows that id in its
`refs` when reloaded: the LIKE pre-filter `%"a"b"%` cannot see through the
JSON escaping of the quote, so the cascade never rewrites the row. -/
theorem delete_leaves_dangling_ref :
    (deleteTodoRow "a\"b" "n" c1Store).1 = true ∧
    ∃ v ∈ loadTodosByDate "d" (deleteTodoRow "a\"b" "n" c1Store).2,
      v.id = "a" ∧ Json.str "a\"b" ∈ v.refs := by decide

/-- C1 (amended to ids without quotes, backslashes, control characters or
LIKE wildcards, and to stores with unique ids whose refs/rels columns hold
canonical serialized arrays — everything this program itself writes):
`delete(id)` succeeds and afterwards no reloaded record is the deleted one,
none shows the id among its refs, and none has a rels entry whose toId is
the id: no dangling reference survives. -/
theorem delete_no_dangling (id now : String) (s : Store)
    (hid : id ≠ "") (hclean : cleanId id = true)
    (hnd : (s.todos.map Row.id).Nodup)
    (hcanon : ∀ r ∈ s.todos, canonicalRow r = true) :
    (deleteTodoRow id now s).1 = true ∧
    ∀ d : String, ∀ v ∈ loadTodosByDate d (deleteTodoRow id now s).2,
      v.id ≠ id ∧ Json.str id ∉ v.refs ∧
      ∀ j ∈ v.rels, j.getToId ≠ some (Json.str id) := by
  have hbe : (id == "") = false := by
    cases hq : id == "" with
    | false => rfl
    | true => exact absurd (eq_of_beq hq) hid
  rw [deleteTodoRow_state id now s hbe]
  refine ⟨rfl, ?_⟩
  intro d v hv
  obtain ⟨r', hr', hvr⟩ := byDate_mem_inv d _ v hv
  obtain ⟨r, hrmem, hreq⟩ := List.mem_map.mp hr'
  have hfil := List.mem_filter.mp hrmem
  have hry : (r.id == id) = false := by
    have := hfil.2
    cases hq : r.id == id with
    | false => rfl
    | true => rw [hq] at this; exact absurd this (by simp)
  have hchain := chain_row_clean id now s r hclean hnd hfil.1 hry
    (hcanon r hfil.1)
  rw [← hreq] at hvr
  subst hvr
  refine ⟨?_, ?_, ?_⟩
  · show (viewOfRow _).id ≠ id
    simp only [viewOfRow]
    rw [hchain.1]
    intro heq
    rw [heq] at hry
    simp at hry
  · show Json.str id ∉ (viewOfRow _).refs
    simp only [viewOfRow]
    exact hchain.2.1
  · show ∀ j ∈ (viewOfRow _).rels, j.getToId ≠ some (Json.str id)
    simp only [viewOfRow]
    exact hchain.2.2

def c1T1 : Row :=
  { id := "t1", title := "", content := "", status := "TODO",
    date := "2024-01-01", ord := 0, refs := "[]",
    rels := "[\x7b\"toId\":\"t2\",\"type\":\"depends\"\x7d]", attachments := "[]",
    createdAt := "c0", updatedAt := "u0" }

def c1T2 : Row :=
  { id := "t2", title := "", content := "", status := "TODO",
    date := "2024-01-01", ord := 1, refs := "[]", rels := "[]",
    attachments := "[]", createdAt := "c1", updatedAt := "u1" }

def c1GoodStore : Store := { todos := [c1T1, c1T2], metaUpdatedAt := "m" }

theorem delete_no_dangling_witness :
    cleanId "t2" = true ∧
    ∀ v ∈ loadTodosByDate "2024-01-01" (deleteTodoRow "t2" "n" c1GoodStore).2,
      v.id ≠ "t2" ∧ Json.str "t2" ∉ v.refs ∧
      ∀ j ∈ v.rels, j.getToId ≠ some (Json.str "t2") :=
  ⟨by decide,
    fun v hv =>
      (delete_no_dangling "t2" "n" c1GoodStore (by decide) (by decide)
        (by decide) (by decide)).2 "2024-01-01" v hv⟩
